import Mathlib

/-!
Verification of the thin_ls analyzer (src/thin-provisioning/thin_ls.cc).

The development shallowly embeds the components of thin_ls.cc:

* `mapping_set` — the per-physical-block state tracker (two bits per block
  packed in a growable `vector<bool>`), with its operations `inc`,
  `get_state`, `ensure_size`, `get_bit`, `set_bit`.
* the output-field machinery (`output_field`, `pass1_needed`),
* the two scanning passes (`mapping_pass1` / `mapping_pass2` visitors,
  `pass1`, `count_exclusives`),
* the damage policy (`raise_metadata_damage`, `fatal_mapping_damage`,
  `fatal_details_damage`),
* the device catalog (`details_extractor` inserting into a `std::map`),
* the orchestration `ls_`.

The external tree-walking services (persistent-data btree walkers, which are
not part of the analyzed source) are modelled from the spec, section 6: each
tree walk is an input sequence of events, either a visited leaf entry or a
damage notification, delivered in order to the registered visitors.

Machine integers (`block_address`, counters) are modelled as `Nat` with an
explicit `% 2^64` where 64-bit wrap-around matters.  A `vector<bool>`
subscript that is out of range is undefined behaviour in C++; fallible
operations therefore return `Option` / `Except`, with `none` / `.oob`
standing for an out-of-range access.
-/

namespace ThinLs

/-- Total read of a list of bits; positions past the end read as `false`.
Used only to STATE properties (the abstract contents of the bit vector);
the embedded code itself goes through the guarded `get_bit`/`set_bit`. -/
def nthD : List Bool → Nat → Bool
  | [], _ => false
  | b :: _, 0 => b
  | _ :: l, n + 1 => nthD l n

@[simp] theorem nthD_nil (n : Nat) : nthD [] n = false := rfl

@[simp] theorem nthD_cons_zero (b : Bool) (l : List Bool) : nthD (b :: l) 0 = b := rfl

@[simp] theorem nthD_cons_succ (b : Bool) (l : List Bool) (n : Nat) :
    nthD (b :: l) (n + 1) = nthD l n := rfl

theorem nthD_replicate_false (n i : Nat) : nthD (List.replicate n false) i = false := by
  induction n generalizing i with
  | zero => simp [List.replicate]
  | succ n ih =>
    cases i with
    | zero => simp [List.replicate]
    | succ i => simp [List.replicate, ih]

theorem nthD_append_lt (l₁ l₂ : List Bool) (i : Nat) (h : i < l₁.length) :
    nthD (l₁ ++ l₂) i = nthD l₁ i := by
  induction l₁ generalizing i with
  | nil => simp at h
  | cons b l ih =>
    cases i with
    | zero => simp
    | succ i =>
      simp only [List.cons_append, nthD_cons_succ]
      exact ih i (by simpa using Nat.lt_of_succ_lt_succ h)

theorem nthD_append_ge (l₁ l₂ : List Bool) (i : Nat) (h : l₁.length ≤ i) :
    nthD (l₁ ++ l₂) i = nthD l₂ (i - l₁.length) := by
  induction l₁ generalizing i with
  | nil => simp
  | cons b l ih =>
    cases i with
    | zero => simp at h
    | succ i =>
      simp only [List.cons_append, nthD_cons_succ, List.length_cons]
      rw [ih i (by simpa using Nat.le_of_succ_le_succ h)]
      simp [Nat.succ_sub_succ]

theorem nthD_set_self (l : List Bool) (i : Nat) (v : Bool) (h : i < l.length) :
    nthD (l.set i v) i = v := by
  induction l generalizing i with
  | nil => simp at h
  | cons b t ih =>
    cases i with
    | zero => simp
    | succ i =>
      simp only [List.set, nthD_cons_succ]
      exact ih i (by simpa using Nat.lt_of_succ_lt_succ h)

theorem nthD_set_ne (l : List Bool) (i j : Nat) (v : Bool) (h : j ≠ i) :
    nthD (l.set i v) j = nthD l j := by
  induction l generalizing i j with
  | nil => simp [List.set]
  | cons b t ih =>
    cases i with
    | zero =>
      cases j with
      | zero => exact absurd rfl h
      | succ j => simp
    | succ i =>
      cases j with
      | zero => simp
      | succ j =>
        simp only [List.set, nthD_cons_succ]
        exact ih i j (fun hc => h (by rw [hc]))

/-! ### The block-state tracker (`mapping_set`, thin_ls.cc lines 47-98) -/

/-- The `block_state` enumeration of `mapping_set`. -/
inductive block_state where
  | UNMAPPED
  | EXCLUSIVE
  | SHARED
deriving DecidableEq

/-- The growth loop of `mapping_set::ensure_size`:
`while (new_size < bit) new_size *= 2;`.
The guard `0 < new_size` is required for termination of the Lean definition;
the C++ loop never terminates when `new_size = 0`, a situation unreachable
from `mapping_set()` whose vector starts with 10240 bits. -/
def grow_loop (new_size bit : Nat) : Nat :=
  if h : 0 < new_size ∧ new_size < bit then grow_loop (new_size * 2) bit else new_size
termination_by bit - new_size
decreasing_by
  simp_wf
  omega

/-- `std::vector<bool>::resize(n, false)`: keep the first `n` existing bits and
pad with `false` up to length `n`. -/
def vec_resize (l : List Bool) (n : Nat) : List Bool :=
  l.take n ++ List.replicate (n - l.length) false

/-- The `mapping_set` class: a dynamically grown bit vector holding two bits
per block address (bit `2b` = seen, bit `2b+1` = shared). -/
structure mapping_set where
  bits_ : List Bool
deriving DecidableEq

/-- The `mapping_set` constructor: `bits_(10240, false)`. -/
def mapping_set.init : mapping_set := ⟨List.replicate 10240 false⟩

/-- `mapping_set::ensure_size` (thin_ls.cc lines 77-85). -/
def mapping_set.ensure_size (ms : mapping_set) (bit : Nat) : mapping_set :=
  if ms.bits_.length ≤ bit then
    ⟨vec_resize ms.bits_ (grow_loop (ms.bits_.length * 2) bit)⟩
  else ms

/-- `mapping_set::get_bit`: `ensure_size(bit); return bits_[bit];`.
An in-range subscript returns the stored bit (read here through the total
`nthD`, which agrees with the element when in range); an out-of-range
subscript is undefined behaviour, modelled as `none`. -/
def mapping_set.get_bit (ms : mapping_set) (bit : Nat) : Option (Bool × mapping_set) :=
  if bit < (ms.ensure_size bit).bits_.length then
    some (nthD (ms.ensure_size bit).bits_ bit, ms.ensure_size bit)
  else none

/-- `mapping_set::set_bit`: `ensure_size(bit); bits_[bit] = v;` with the same
out-of-range convention as `get_bit`. -/
def mapping_set.set_bit (ms : mapping_set) (bit : Nat) (v : Bool) : Option mapping_set :=
  if bit < (ms.ensure_size bit).bits_.length then
    some ⟨(ms.ensure_size bit).bits_.set bit v⟩
  else none

/-- `mapping_set::inc` (thin_ls.cc lines 59-64). -/
def mapping_set.inc (ms : mapping_set) (b : Nat) : Option mapping_set := do
  let (seen, ms₁) ← ms.get_bit (b * 2)
  if seen then ms₁.set_bit (b * 2 + 1) true
  else ms₁.set_bit (b * 2) true

/-- `mapping_set::get_state` (thin_ls.cc lines 66-74).  `get_state` is
declared `const` but `bits_` is `mutable`, so the query may still grow the
vector; the possibly-grown tracker is returned alongside the state. -/
def mapping_set.get_state (ms : mapping_set) (b : Nat) : Option (block_state × mapping_set) := do
  let (seen, ms₁) ← ms.get_bit (b * 2)
  if seen then do
    let (sh, ms₂) ← ms₁.get_bit (b * 2 + 1)
    pure (if sh then block_state.SHARED else block_state.EXCLUSIVE, ms₂)
  else pure (block_state.UNMAPPED, ms₁)

/-- Abstract contents of the tracker at block `b`, read directly off the
bits (out-of-range bits read `false`, which coincides with the value any
in-range read can ever observe there, since growth pads with `false`).
This is the abstraction used to state classification properties. -/
def mapping_set.view (ms : mapping_set) (b : Nat) : block_state :=
  if nthD ms.bits_ (b * 2) then
    if nthD ms.bits_ (b * 2 + 1) then block_state.SHARED else block_state.EXCLUSIVE
  else block_state.UNMAPPED

/-- Single bit of the abstract contents. -/
def mapping_set.mbit (ms : mapping_set) (i : Nat) : Bool := nthD ms.bits_ i

/-- Running `inc` over a list of block addresses in order (the sequence of
`mapping_pass1::visit` calls of one or more tree walks). -/
def incAll (ms : mapping_set) : List Nat → Option mapping_set
  | [] => some ms
  | b :: bs => (ms.inc b).bind (fun ms₁ => incAll ms₁ bs)

/-- The bit `inc b` turns on: the shared bit if the seen bit is already set,
the seen bit otherwise. -/
def inc_target (ms : mapping_set) (b : Nat) : Nat :=
  if ms.mbit (b * 2) then b * 2 + 1 else b * 2

/-- Invariant of every tracker the program can build: the shared bit of a
block is only ever set when its seen bit is set (`inc` sets the shared bit
only after observing the seen bit). -/
def mapping_set.wf (ms : mapping_set) : Prop :=
  ∀ b : Nat, ms.mbit (b * 2 + 1) = true → ms.mbit (b * 2) = true

/-- Abstract effect of one `inc` on the classification of the incremented
block: Unmapped becomes Exclusive, Exclusive becomes Shared, Shared stays
Shared. -/
def bump : block_state → block_state
  | block_state.UNMAPPED => block_state.EXCLUSIVE
  | block_state.EXCLUSIVE => block_state.SHARED
  | block_state.SHARED => block_state.SHARED

/-- `n`-fold iteration of `bump`. -/
def bumpN : Nat → block_state → block_state
  | 0, s => s
  | n + 1, s => bumpN n (bump s)

/-- Classification of a block from the number of references to it:
none, exactly one, or two and more. -/
def classify (n : Nat) : block_state :=
  if n = 0 then block_state.UNMAPPED
  else if n = 1 then block_state.EXCLUSIVE
  else block_state.SHARED

/-- Number of devices whose referenced-block list contains `b`. -/
def device_reference_count (devices : List (List Nat)) (b : Nat) : Nat :=
  devices.countP (fun l => decide (b ∈ l))

/-- The worked example of the spec: device A references physical blocks
1, 2, 3 and device B references 3, 4. -/
def worked_example_devices : List (List Nat) := [[1, 2, 3], [3, 4]]

/-- State reported for block `b` after running Pass 1 on the worked example
from a fresh tracker (`none` when Pass 1 or the state query goes out of
range). -/
def worked_example_state (b : Nat) : Option block_state :=
  (incAll mapping_set.init worked_example_devices.flatten).bind
    (fun ms => (ms.get_state b).map Prod.fst)

/-- An operation performed on the tracker: a Pass-1 increment or a Pass-2
state query (whose returned state is discarded here; only its effect on the
tracker is retained). -/
inductive tracker_op where
  | inc_op (b : Nat)
  | state_op (b : Nat)
deriving DecidableEq

/-- Run a sequence of tracker operations, threading the (mutable) tracker. -/
def runOps (ms : mapping_set) : List tracker_op → Option mapping_set
  | [] => some ms
  | tracker_op.inc_op b :: rest => (ms.inc b).bind (fun ms₁ => runOps ms₁ rest)
  | tracker_op.state_op b :: rest => (ms.get_state b).bind (fun p => runOps p.2 rest)

/-- The increments of an operation sequence, with the state queries erased. -/
def incsOf (ops : List tracker_op) : List Nat :=
  ops.filterMap (fun op =>
    match op with
    | tracker_op.inc_op b => some b
    | tracker_op.state_op _ => none)

/-- Position of a state in the progression Unmapped, Exclusive, Shared. -/
def rank : block_state → Nat
  | block_state.UNMAPPED => 0
  | block_state.EXCLUSIVE => 1
  | block_state.SHARED => 2

/-! ### The analyzer pipeline (thin_ls.cc lines 102-449)

The external btree-walking services (`walk_mapping_tree`,
`walk_device_tree`, the top-level `lookup` — persistent-data code that is
not part of the analyzed source) are modelled from the spec, section 6: a
tree walk is an input sequence of events, each either a visited leaf entry
or a damage notification, delivered in order to the mapping/damage
visitors; the top-level lookup is an input map from device id to the walk
of that device's mapping tree (or `none` when the root is absent). -/

/-- Failure of a run: a thrown C++ exception carrying a message, or an
out-of-range `vector<bool>` access (undefined behaviour, not an exception). -/
inductive failure where
  | thrown (msg : String)
  | oob
deriving DecidableEq

/-- Is an `Except` result a success? -/
def exceptOk {α : Type} : Except failure α → Bool
  | Except.ok _ => true
  | Except.error _ => false

/-- `device_tree_detail::device_details`: the per-device record of the
device tree (all fields 64/32-bit unsigned quantities). -/
structure device_details where
  mapped_blocks_ : Nat
  transaction_id_ : Nat
  creation_time_ : Nat
  snapshotted_time_ : Nat
deriving DecidableEq

/-- `mapping_tree_detail::block_time`: a mapping-tree leaf value, the
referenced physical block together with its time stamp. -/
structure block_time where
  block_ : Nat
  time_ : Nat
deriving DecidableEq

/-- The two kinds of mapping-tree damage the damage visitor dispatches on
(`mapping_tree_detail::missing_devices` / `missing_mappings`; their
descriptive payloads play no role in thin_ls.cc and are omitted). -/
inductive mapping_damage where
  | missing_devices
  | missing_mappings
deriving DecidableEq

/-- One event of a mapping-tree walk: a visited leaf entry or a damage
notification. -/
inductive map_item where
  | entry (bt : block_time)
  | damage (d : mapping_damage)
deriving DecidableEq

/-- One event of a device-tree walk: a visited device or a damage
notification (`device_tree_detail::missing_devices`). -/
inductive dev_item where
  | dev (id : Nat) (dd : device_details)
  | damage
deriving DecidableEq

/-- The opened, read-only metadata as the analyzer consumes it: the
superblock's data block size, the device-tree walk, and for each device id
the walk of its mapping tree (`none` = top-level lookup finds no root). -/
structure metadata where
  data_block_size : Nat
  details_walk : List dev_item
  top_level : Nat → Option (List map_item)

/-- The message thrown by `raise_metadata_damage` (thin_ls.cc line 225). -/
def raise_metadata_damage_msg : String :=
  "metadata contains errors (run thin_check for details)."

/-- `fatal_mapping_damage`: both `visit` overloads call
`raise_metadata_damage` (thin_ls.cc lines 228-237). -/
def fatal_mapping_damage_visit : mapping_damage → failure
  | mapping_damage.missing_devices => failure.thrown raise_metadata_damage_msg
  | mapping_damage.missing_mappings => failure.thrown raise_metadata_damage_msg

/-- `fatal_details_damage::visit` calls `raise_metadata_damage`
(thin_ls.cc lines 289-293). -/
def fatal_details_damage_visit : failure :=
  failure.thrown raise_metadata_damage_msg

/-- `walk_mapping_tree` with the `mapping_pass1` visitor (increment each
entry's physical block) and the `fatal_mapping_damage` damage visitor. -/
def walk_pass1 (ms : mapping_set) : List map_item → Except failure mapping_set
  | [] => Except.ok ms
  | map_item.entry bt :: rest =>
    match ms.inc bt.block_ with
    | some ms₁ => walk_pass1 ms₁ rest
    | none => Except.error failure.oob
  | map_item.damage d :: _ => Except.error (fatal_mapping_damage_visit d)

/-- `walk_mapping_tree` with the `mapping_pass2` visitor (count entries
whose block is Exclusive; the `exclusives_` counter is a 64-bit
`block_address`) and the `fatal_mapping_damage` damage visitor.  The
tracker is threaded through because `get_state` can grow the mutable
vector even through the `const` reference. -/
def walk_pass2 (ms : mapping_set) (exclusives : Nat) :
    List map_item → Except failure (Nat × mapping_set)
  | [] => Except.ok (exclusives, ms)
  | map_item.entry bt :: rest =>
    match ms.get_state bt.block_ with
    | some (st, ms₁) =>
      walk_pass2 ms₁
        (if st = block_state.EXCLUSIVE then (exclusives + 1) % 2 ^ 64 else exclusives) rest
    | none => Except.error failure.oob
  | map_item.damage d :: _ => Except.error (fatal_mapping_damage_visit d)

/-- `pass1` (thin_ls.cc lines 239-252): look up the device's mapping-tree
root and walk it with the Pass-1 visitors.  The original message for the
absent root spells "could not" as a contraction; the wording is not load
bearing for any property proved here. -/
def pass1 (md : metadata) (ms : mapping_set) (dev_id : Nat) : Except failure mapping_set :=
  match md.top_level dev_id with
  | none => Except.error (failure.thrown "could not find mapping tree root")
  | some walk => walk_pass1 ms walk

/-- `count_exclusives` (thin_ls.cc lines 255-269): look up the device's
mapping-tree root and walk it with the Pass-2 visitors (same wording note
as `pass1` for the absent-root message). -/
def count_exclusives (md : metadata) (ms : mapping_set) (dev_id : Nat) :
    Except failure (Nat × mapping_set) :=
  match md.top_level dev_id with
  | none => Except.error (failure.thrown "could not find mapping tree root")
  | some walk => walk_pass2 ms 0 walk

/-- `std::map<block_address, device_details>::insert` on the key-sorted
association list representing `dd_map`: inserts in key order and keeps the
existing element when the key is already present. -/
def map_insert (m : List (Nat × device_details)) (key : Nat) (v : device_details) :
    List (Nat × device_details) :=
  match m with
  | [] => [(key, v)]
  | (k, w) :: rest =>
    if key < k then (key, v) :: (k, w) :: rest
    else if key = k then (k, w) :: rest
    else (k, w) :: map_insert rest key v

/-- `walk_device_tree` with the `details_extractor` visitor (insert every
visited device into the `dd_map`) and the `fatal_details_damage` damage
visitor. -/
def walk_device_tree_model :
    List dev_item → List (Nat × device_details) → Except failure (List (Nat × device_details))
  | [], acc => Except.ok acc
  | dev_item.dev id dd :: rest, acc => walk_device_tree_model rest (map_insert acc id dd)
  | dev_item.damage :: _, _ => Except.error fatal_details_damage_visit

/-- The `output_field` enumeration (thin_ls.cc lines 102-123). -/
inductive output_field where
  | DEV_ID
  | MAPPED_BLOCKS
  | EXCLUSIVE_BLOCKS
  | SHARED_BLOCKS
  | MAPPED_SECTORS
  | EXCLUSIVE_SECTORS
  | SHARED_SECTORS
  | MAPPED_BYTES
  | EXCLUSIVE_BYTES
  | SHARED_BYTES
  | MAPPED
  | EXCLUSIVE
  | SHARED
  | TRANSACTION_ID
  | CREATION_TIME
  | SNAPSHOT_TIME
deriving DecidableEq

/-- The `flags` structure (thin_ls.cc lines 171-185). -/
structure flags where
  use_metadata_snap : Bool
  headers : Bool
  fields : List output_field

/-- The `flags` constructor defaults: no metadata snap, headers on, fields
DEV, MAPPED, CREATE_TIME, SNAP_TIME. -/
def default_flags : flags :=
  ⟨false, true,
    [output_field.DEV_ID, output_field.MAPPED, output_field.CREATION_TIME,
      output_field.SNAPSHOT_TIME]⟩

/-- `pass1_needed` (thin_ls.cc lines 302-317): scan the field list for any
exclusivity-dependent field. -/
def pass1_needed : List output_field → Bool
  | [] => false
  | f :: rest =>
    if f = output_field.EXCLUSIVE_BLOCKS ∨ f = output_field.SHARED_BLOCKS ∨
        f = output_field.EXCLUSIVE_SECTORS ∨ f = output_field.SHARED_SECTORS ∨
        f = output_field.EXCLUSIVE_BYTES ∨ f = output_field.SHARED_BYTES ∨
        f = output_field.EXCLUSIVE ∨ f = output_field.SHARED
    then true
    else pass1_needed rest

/-- The eight exclusivity-dependent fields, as a boolean predicate. -/
def is_exclusive_field (f : output_field) : Bool :=
  decide (f = output_field.EXCLUSIVE_BLOCKS ∨ f = output_field.SHARED_BLOCKS ∨
    f = output_field.EXCLUSIVE_SECTORS ∨ f = output_field.SHARED_SECTORS ∨
    f = output_field.EXCLUSIVE_BYTES ∨ f = output_field.SHARED_BYTES ∨
    f = output_field.EXCLUSIVE ∨ f = output_field.SHARED)

/-- The 64-bit modulus of `block_address` arithmetic. -/
def u64_mod : Nat := 2 ^ 64

/-- Unsigned 64-bit subtraction `a - b` (wraps modulo `2^64`). -/
def u64_sub (a b : Nat) : Nat :=
  (a % u64_mod + (u64_mod - b % u64_mod)) % u64_mod

/-- Modelled from the spec: the external disk-units helper of
base/disk_units.h.  `disk_unit_multiplier(UNIT_SECTOR)` is the byte size of
a sector; no verified claim depends on the numeric value. -/
def disk_unit_multiplier_UNIT_SECTOR : Nat := 512

/-- A value placed in a grid cell: a plain number, or a number formatted by
the external `format_disk_unit` helper (represented by the sector count
passed to it — the formatter is an external, deterministic function of that
argument). -/
inductive field_value where
  | num (n : Nat)
  | disk_unit (sectors : Nat)
deriving DecidableEq

/-- One cell of the report: the `switch (*f)` of `ls_`
(thin_ls.cc lines 359-431), with 64-bit arithmetic made explicit. -/
def field_cell (block_size : Nat) (id : Nat) (dd : device_details) (exclusive : Nat) :
    output_field → field_value
  | output_field.DEV_ID => field_value.num id
  | output_field.MAPPED_BLOCKS => field_value.num dd.mapped_blocks_
  | output_field.EXCLUSIVE_BLOCKS => field_value.num exclusive
  | output_field.SHARED_BLOCKS => field_value.num (u64_sub dd.mapped_blocks_ exclusive)
  | output_field.MAPPED_SECTORS =>
    field_value.num (dd.mapped_blocks_ * block_size % u64_mod)
  | output_field.EXCLUSIVE_SECTORS =>
    field_value.num (exclusive * block_size % u64_mod)
  | output_field.SHARED_SECTORS =>
    field_value.num (u64_sub dd.mapped_blocks_ exclusive * block_size % u64_mod)
  | output_field.MAPPED_BYTES =>
    field_value.num
      (dd.mapped_blocks_ * block_size * disk_unit_multiplier_UNIT_SECTOR % u64_mod)
  | output_field.EXCLUSIVE_BYTES =>
    field_value.num (exclusive * block_size * disk_unit_multiplier_UNIT_SECTOR % u64_mod)
  | output_field.SHARED_BYTES =>
    field_value.num
      (u64_sub dd.mapped_blocks_ exclusive * block_size *
        disk_unit_multiplier_UNIT_SECTOR % u64_mod)
  | output_field.MAPPED => field_value.disk_unit (dd.mapped_blocks_ * block_size % u64_mod)
  | output_field.EXCLUSIVE => field_value.disk_unit (exclusive * block_size % u64_mod)
  | output_field.SHARED =>
    field_value.disk_unit (u64_sub dd.mapped_blocks_ exclusive * block_size % u64_mod)
  | output_field.TRANSACTION_ID => field_value.num dd.transaction_id_
  | output_field.CREATION_TIME => field_value.num dd.creation_time_
  | output_field.SNAPSHOT_TIME => field_value.num dd.snapshotted_time_

/-- The Pass-1 loop of `ls_` (thin_ls.cc lines 342-345): run `pass1` for
every catalog device, threading the shared tracker. -/
def pass1_all (md : metadata) :
    List (Nat × device_details) → mapping_set → Except failure mapping_set
  | [], ms => Except.ok ms
  | (id, _) :: rest, ms =>
    match pass1 md ms id with
    | Except.error e => Except.error e
    | Except.ok ms₁ => pass1_all md rest ms₁

/-- The report loop of `ls_` (thin_ls.cc lines 350-434): for every catalog
device, run `count_exclusives` when exclusivity data was requested, then
emit one row of cells.  Rows only become visible when the whole loop (and
the final `grid.render`) completes. -/
def report_rows (md : metadata) (block_size : Nat) (fields : List output_field)
    (some_excl : Bool) :
    List (Nat × device_details) → mapping_set → Except failure (List (List field_value))
  | [], _ => Except.ok []
  | (id, dd) :: rest, ms =>
    match (if some_excl then count_exclusives md ms id else Except.ok (0, ms)) with
    | Except.error e => Except.error e
    | Except.ok (exclusive, ms₁) =>
      match report_rows md block_size fields some_excl rest ms₁ with
      | Except.error e => Except.error e
      | Except.ok rows => Except.ok (fields.map (field_cell block_size id dd exclusive) :: rows)

/-- `ls_` (thin_ls.cc lines 319-437): walk the device tree into the
catalog, run Pass 1 over all devices when an exclusivity field was
requested, then produce the report rows (Pass 2 interleaved per device).
The grid is rendered only after the loop, so a failure anywhere yields no
rows at all. -/
def ls_ (md : metadata) (fl : flags) : Except failure (List (List field_value)) :=
  match walk_device_tree_model md.details_walk [] with
  | Except.error e => Except.error e
  | Except.ok dmap =>
    match (if pass1_needed fl.fields then pass1_all md dmap mapping_set.init
           else Except.ok mapping_set.init) with
    | Except.error e => Except.error e
    | Except.ok ms => report_rows md md.data_block_size fl.fields (pass1_needed fl.fields) dmap ms

/-- `ls` (thin_ls.cc lines 439-449): catches any `std::exception`, prints
its message and returns exit code 1 with nothing rendered; an out-of-range
access is not an exception and remains undefined behaviour. -/
def ls (md : metadata) (fl : flags) : Except failure (Nat × List (List field_value)) :=
  match ls_ md fl with
  | Except.ok rows => Except.ok (0, rows)
  | Except.error (failure.thrown _) => Except.ok (1, [])
  | Except.error failure.oob => Except.error failure.oob

/-! ### Observation helpers over walks, rows and metadata -/

/-- Number of leaf entries a mapping-tree walk visits. -/
def walk_entry_count : List map_item → Nat
  | [] => 0
  | map_item.entry _ :: rest => walk_entry_count rest + 1
  | map_item.damage _ :: rest => walk_entry_count rest

/-- Does a mapping-tree walk report any damage notification? -/
def walk_has_damage : List map_item → Bool
  | [] => false
  | map_item.entry _ :: rest => walk_has_damage rest
  | map_item.damage _ :: _ => true

/-- Device whose Pass-1/Pass-2 processing must fail: missing top-level root
or damage in its mapping-tree walk. -/
def dev_bad (md : metadata) (id : Nat) : Bool :=
  match md.top_level id with
  | none => true
  | some walk => walk_has_damage walk

/-- A mapping-tree walk that stays entirely inside the tracker's initial
capacity and reports no damage: every entry's block is below 5120, so both
tracker bits of every block lie below the initial 10240. -/
def map_items_ok : List map_item → Bool
  | [] => true
  | map_item.entry bt :: rest => decide (bt.block_ < 5120) && map_items_ok rest
  | map_item.damage _ :: _ => false

/-- The device's mapping-tree root resolves and its walk is in-range and
damage-free. -/
def dev_ok (md : metadata) (id : Nat) : Bool :=
  match md.top_level id with
  | none => false
  | some walk => map_items_ok walk

/-- Every delivered device is `dev_ok` and the device-tree walk itself
reports no damage. -/
def dev_items_ok (md : metadata) : List dev_item → Bool
  | [] => true
  | dev_item.dev id _ :: rest => dev_ok md id && dev_items_ok md rest
  | dev_item.damage :: _ => false

/-- The cells of a row that sit under a given field of the header. -/
def cells_of (tgt : output_field) : List output_field → List field_value → List field_value
  | f :: fs, v :: vs =>
    if f = tgt then v :: cells_of tgt fs vs else cells_of tgt fs vs
  | _, _ => []

/-! ### Concrete inputs used by witnesses and counterexamples -/

/-- A fresh tracker queried at block 3 then incremented at block 1,
compared against the increments alone: the two final trackers classify
every block identically. -/
def purity_example_views_agree : Bool :=
  match runOps mapping_set.init [tracker_op.state_op 3, tracker_op.inc_op 1],
      incAll mapping_set.init (incsOf [tracker_op.state_op 3, tracker_op.inc_op 1]) with
  | some m₁, some m₂ => decide (m₁.view 1 = m₂.view 1 ∧ m₁.view 3 = m₂.view 3)
  | _, _ => false

/-- Observed states of block 5 before and after two further increments of
block 5 and one of block 9, starting from a tracker that already saw block
5 twice. -/
def monotonic_example : Option (block_state × block_state) :=
  (incAll mapping_set.init [5, 5]).bind (fun ms =>
    (ms.get_state 5).bind (fun p₁ =>
      (incAll p₁.2 [5, 9]).bind (fun ms₂ =>
        (ms₂.get_state 5).map (fun p₂ => (p₁.1, p₂.1)))))

/-- Field list requesting exclusivity data. -/
def fl_exclusive : flags :=
  ⟨false, true,
    [output_field.DEV_ID, output_field.MAPPED_BLOCKS, output_field.EXCLUSIVE_BLOCKS,
      output_field.SHARED_BLOCKS]⟩

/-- Catalog record whose mapped-block count (5) disagrees with its single
mapping entry. -/
def dd_mismatch : device_details := ⟨5, 1, 2, 3⟩

/-- Metadata whose only device claims 5 mapped blocks but whose mapping
tree holds a single entry. -/
def md_mismatch : metadata :=
  ⟨128, [dev_item.dev 0 dd_mismatch],
    fun id => if id = 0 then some [map_item.entry ⟨1, 0⟩] else none⟩

/-- Metadata with a healthy device 1 and a device 2 whose mapping-tree walk
reports a missing_mappings damage after one entry. -/
def md_damaged : metadata :=
  ⟨128, [dev_item.dev 1 ⟨1, 0, 0, 0⟩, dev_item.dev 2 ⟨1, 0, 0, 0⟩],
    fun id =>
      if id = 1 then some [map_item.entry ⟨1, 0⟩]
      else if id = 2 then
        some [map_item.entry ⟨2, 0⟩, map_item.damage mapping_damage.missing_mappings]
      else none⟩

/-- The worked example of the spec as full metadata: device 1 (A) maps
blocks 1,2,3; device 2 (B) maps blocks 3,4; the catalog's mapped counts
agree. -/
def md_worked : metadata :=
  ⟨128, [dev_item.dev 1 ⟨3, 10, 20, 30⟩, dev_item.dev 2 ⟨2, 11, 21, 31⟩],
    fun id =>
      if id = 1 then
        some [map_item.entry ⟨1, 0⟩, map_item.entry ⟨2, 0⟩, map_item.entry ⟨3, 0⟩]
      else if id = 2 then some [map_item.entry ⟨3, 0⟩, map_item.entry ⟨4, 0⟩]
      else none⟩

/-- A top-level lookup that never resolves. -/
def tl_none : Nat → Option (List map_item) := fun _ => none

/-- A top-level lookup whose every walk instantly reports damage. -/
def tl_damaged : Nat → Option (List map_item) :=
  fun _ => some [map_item.damage mapping_damage.missing_mappings]

/-- A device-tree walk delivering devices 3, 1, 2 in that order. -/
def items_unordered : List dev_item :=
  [dev_item.dev 3 ⟨1, 0, 0, 0⟩, dev_item.dev 1 ⟨1, 0, 0, 0⟩, dev_item.dev 2 ⟨1, 0, 0, 0⟩]

/-- A device-tree walk with a single healthy device. -/
def dw_single : List dev_item := [dev_item.dev 0 ⟨7, 0, 0, 0⟩]

/-- Metadata with one device (id 7) mapping one block, catalog and walk in
agreement. -/
def md_single : metadata :=
  ⟨64, [dev_item.dev 7 ⟨1, 5, 6, 7⟩],
    fun id => if id = 7 then some [map_item.entry ⟨2, 0⟩] else none⟩

/-! ### Basic lemmas about the tracker -/

theorem nthD_eq_false_of_le (l : List Bool) (i : Nat) (h : l.length ≤ i) :
    nthD l i = false := by
  induction l generalizing i with
  | nil => simp
  | cons b t ih =>
    cases i with
    | zero => simp at h
    | succ i => exact ih i (by simpa using Nat.le_of_succ_le_succ h)

theorem grow_loop_done (n bit : Nat) (h : ¬(0 < n ∧ n < bit)) : grow_loop n bit = n := by
  rw [grow_loop]
  exact dif_neg h

theorem grow_loop_step (n bit : Nat) (h1 : 0 < n) (h2 : n < bit) :
    grow_loop n bit = grow_loop (n * 2) bit := by
  conv_lhs => rw [grow_loop]
  exact dif_pos ⟨h1, h2⟩

theorem grow_loop_le (n bit : Nat) : n ≤ grow_loop n bit := by
  by_cases h : 0 < n ∧ n < bit
  · rw [grow_loop_step n bit h.1 h.2]
    exact le_trans (by omega) (grow_loop_le (n * 2) bit)
  · rw [grow_loop_done n bit h]
termination_by bit - n
decreasing_by
  simp_wf
  omega

theorem grow_loop_ge (n bit : Nat) (h : 0 < n) : bit ≤ grow_loop n bit := by
  by_cases h2 : n < bit
  · rw [grow_loop_step n bit h h2]
    exact grow_loop_ge (n * 2) bit (by omega)
  · rw [grow_loop_done n bit (by omega)]
    omega
termination_by bit - n
decreasing_by
  simp_wf
  omega

theorem length_vec_resize (l : List Bool) (n : Nat) : (vec_resize l n).length = n := by
  simp [vec_resize]
  omega

theorem vec_resize_eq_append (l : List Bool) (n : Nat) (h : l.length ≤ n) :
    vec_resize l n = l ++ List.replicate (n - l.length) false := by
  unfold vec_resize
  rw [List.take_of_length_le h]

theorem ensure_size_mbit (ms : mapping_set) (bit i : Nat) :
    (ms.ensure_size bit).mbit i = ms.mbit i := by
  unfold mapping_set.ensure_size
  by_cases h : ms.bits_.length ≤ bit
  · rw [if_pos h]
    rcases Nat.eq_zero_or_pos ms.bits_.length with h0 | hpos
    · have hnil : ms.bits_ = [] := List.length_eq_zero.mp h0
      simp [mapping_set.mbit, vec_resize, hnil, nthD_replicate_false]
    · have hle : ms.bits_.length ≤ grow_loop (ms.bits_.length * 2) bit :=
        le_trans (by omega) (grow_loop_le _ _)
      show nthD (vec_resize ms.bits_ _) i = nthD ms.bits_ i
      rw [vec_resize_eq_append _ _ hle]
      by_cases hi : i < ms.bits_.length
      · rw [nthD_append_lt _ _ _ hi]
      · rw [nthD_append_ge _ _ _ (by omega), nthD_replicate_false,
            nthD_eq_false_of_le _ _ (by omega)]
  · rw [if_neg h]

theorem ensure_size_view (ms : mapping_set) (bit b : Nat) :
    (ms.ensure_size bit).view b = ms.view b := by
  have h : ∀ j, nthD (ms.ensure_size bit).bits_ j = nthD ms.bits_ j :=
    fun j => ensure_size_mbit ms bit j
  unfold mapping_set.view
  rw [h (b * 2), h (b * 2 + 1)]

theorem ensure_size_length_ge (ms : mapping_set) (bit : Nat) :
    ms.bits_.length ≤ (ms.ensure_size bit).bits_.length := by
  unfold mapping_set.ensure_size
  by_cases h : ms.bits_.length ≤ bit
  · rw [if_pos h]
    show ms.bits_.length ≤ (vec_resize _ _).length
    rw [length_vec_resize]
    exact le_trans (by omega) (grow_loop_le _ _)
  · rw [if_neg h]

theorem get_bit_some (ms : mapping_set) (bit : Nat) (v : Bool) (ms₁ : mapping_set)
    (h : ms.get_bit bit = some (v, ms₁)) :
    v = ms.mbit bit ∧ ms₁ = ms.ensure_size bit ∧ bit < ms₁.bits_.length := by
  unfold mapping_set.get_bit at h
  by_cases hc : bit < (ms.ensure_size bit).bits_.length
  · rw [if_pos hc] at h
    have h1 : v = nthD (ms.ensure_size bit).bits_ bit := by
      cases h
      rfl
    have h2 : ms₁ = ms.ensure_size bit := by
      cases h
      rfl
    refine ⟨?_, h2, h2 ▸ hc⟩
    rw [h1]
    exact ensure_size_mbit ms bit bit
  · rw [if_neg hc] at h
    cases h

theorem set_bit_some (ms : mapping_set) (bit : Nat) (v : Bool) (ms₁ : mapping_set)
    (h : ms.set_bit bit v = some ms₁) :
    (∀ j, ms₁.mbit j = if j = bit then v else ms.mbit j) ∧
      ms.bits_.length ≤ ms₁.bits_.length := by
  unfold mapping_set.set_bit at h
  by_cases hc : bit < (ms.ensure_size bit).bits_.length
  · rw [if_pos hc] at h
    have h2 : ms₁ = ⟨(ms.ensure_size bit).bits_.set bit v⟩ := by
      cases h
      rfl
    subst h2
    constructor
    · intro j
      by_cases hj : j = bit
      · subst hj
        simp only [if_pos rfl, mapping_set.mbit]
        exact nthD_set_self _ _ _ hc
      · rw [if_neg hj]
        show nthD _ j = _
        rw [nthD_set_ne _ _ _ _ hj]
        exact ensure_size_mbit ms bit j
    · show ms.bits_.length ≤ ((ms.ensure_size bit).bits_.set bit v).length
      rw [List.length_set]
      exact ensure_size_length_ge ms bit
  · rw [if_neg hc] at h
    cases h

theorem inc_mbit (ms : mapping_set) (b : Nat) (ms' : mapping_set)
    (h : ms.inc b = some ms') :
    (∀ j, ms'.mbit j = if j = inc_target ms b then true else ms.mbit j) ∧
      ms.bits_.length ≤ ms'.bits_.length := by
  unfold mapping_set.inc at h
  cases h1 : ms.get_bit (b * 2) with
  | none =>
    rw [h1] at h
    cases h
  | some p =>
    obtain ⟨seen, ms₁⟩ := p
    rw [h1] at h
    simp only [Option.bind_eq_bind, Option.some_bind] at h
    obtain ⟨hv, hm, -⟩ := get_bit_some ms (b * 2) seen ms₁ h1
    have hmb : ∀ j, ms₁.mbit j = ms.mbit j := by
      intro j
      rw [hm]
      exact ensure_size_mbit ms (b * 2) j
    have hlen1 : ms.bits_.length ≤ ms₁.bits_.length := hm ▸ ensure_size_length_ge ms (b * 2)
    cases hseen : seen with
    | true =>
      rw [hseen] at h
      simp only [if_pos] at h
      obtain ⟨hset, hlen2⟩ := set_bit_some ms₁ (b * 2 + 1) true ms' h
      refine ⟨?_, le_trans hlen1 hlen2⟩
      intro j
      rw [hset j, inc_target, ← hv, hseen]
      simp only [if_pos]
      by_cases hj : j = b * 2 + 1
      · simp [hj]
      · simp [hj, hmb j]
    | false =>
      rw [hseen] at h
      simp only [Bool.false_eq_true, if_false] at h
      obtain ⟨hset, hlen2⟩ := set_bit_some ms₁ (b * 2) true ms' h
      refine ⟨?_, le_trans hlen1 hlen2⟩
      intro j
      rw [hset j, inc_target, ← hv, hseen]
      simp only [Bool.false_eq_true, if_false]
      by_cases hj : j = b * 2
      · simp [hj]
      · simp [hj, hmb j]

theorem get_state_some (ms : mapping_set) (b : Nat) (st : block_state) (ms₂ : mapping_set)
    (h : ms.get_state b = some (st, ms₂)) :
    st = ms.view b ∧ (∀ j, ms₂.mbit j = ms.mbit j) ∧
      ms.bits_.length ≤ ms₂.bits_.length := by
  unfold mapping_set.get_state at h
  cases h1 : ms.get_bit (b * 2) with
  | none =>
    rw [h1] at h
    cases h
  | some p =>
    obtain ⟨seen, ms₁⟩ := p
    rw [h1] at h
    simp only [Option.bind_eq_bind, Option.some_bind] at h
    obtain ⟨hv, hm, -⟩ := get_bit_some ms (b * 2) seen ms₁ h1
    have hmb1 : ∀ j, ms₁.mbit j = ms.mbit j := by
      intro j
      rw [hm]
      exact ensure_size_mbit ms (b * 2) j
    have hlen1 : ms.bits_.length ≤ ms₁.bits_.length := hm ▸ ensure_size_length_ge ms (b * 2)
    cases hseen : seen with
    | false =>
      rw [hseen] at h
      simp only [Bool.false_eq_true, if_false, pure, Option.some.injEq, Prod.mk.injEq] at h
      obtain ⟨hst, hms⟩ := h
      subst hms
      refine ⟨?_, hmb1, hlen1⟩
      rw [← hst]
      unfold mapping_set.view
      have : nthD ms.bits_ (b * 2) = false := by
        have := hv
        rw [hseen] at this
        exact this.symm
      rw [this]
      simp
    | true =>
      rw [hseen] at h
      simp only [if_pos] at h
      cases h2 : ms₁.get_bit (b * 2 + 1) with
      | none =>
        rw [h2] at h
        cases h
      | some q =>
        obtain ⟨sh, ms₃⟩ := q
        rw [h2] at h
        simp only [Option.bind_eq_bind, Option.some_bind, pure, Option.some.injEq,
          Prod.mk.injEq] at h
        obtain ⟨hst, hms⟩ := h
        obtain ⟨hv2, hm2, -⟩ := get_bit_some ms₁ (b * 2 + 1) sh ms₃ h2
        have hmb2 : ∀ j, ms₃.mbit j = ms₁.mbit j := by
          intro j
          rw [hm2]
          exact ensure_size_mbit ms₁ (b * 2 + 1) j
        have hlen2 : ms₁.bits_.length ≤ ms₃.bits_.length :=
          hm2 ▸ ensure_size_length_ge ms₁ (b * 2 + 1)
        subst hms
        refine ⟨?_, fun j => (hmb2 j).trans (hmb1 j), le_trans hlen1 hlen2⟩
        rw [← hst]
        unfold mapping_set.view
        have hseenb : nthD ms.bits_ (b * 2) = true := by
          have := hv
          rw [hseen] at this
          exact this.symm
        have hshb : sh = nthD ms.bits_ (b * 2 + 1) := by
          rw [hv2]
          exact hmb1 (b * 2 + 1)
        rw [hseenb, ← hshb]
        simp

/-! ### The tracker invariant and the abstract step function -/

theorem wf_init : mapping_set.init.wf := by
  intro b h
  rw [mapping_set.mbit, mapping_set.init] at h
  rw [nthD_replicate_false] at h
  cases h

theorem init_view (b : Nat) : mapping_set.init.view b = block_state.UNMAPPED := by
  unfold mapping_set.view mapping_set.init
  rw [nthD_replicate_false]
  simp

theorem init_length : mapping_set.init.bits_.length = 10240 := by
  show (List.replicate 10240 false).length = 10240
  exact List.length_replicate 10240 false

theorem inc_wf (ms : mapping_set) (b : Nat) (ms' : mapping_set)
    (h : ms.inc b = some ms') (hwf : ms.wf) : ms'.wf := by
  obtain ⟨hset, -⟩ := inc_mbit ms b ms' h
  intro c hc
  rw [hset] at hc ⊢
  cases hseen : ms.mbit (b * 2) with
  | true =>
    have ht : inc_target ms b = b * 2 + 1 := by
      unfold inc_target
      rw [hseen]
      simp
    rw [ht] at hc ⊢
    by_cases hcb : c = b
    · subst hcb
      rw [if_neg (by omega)]
      exact hseen
    · rw [if_neg (by omega)] at hc
      rw [if_neg (by omega)]
      exact hwf c hc
  | false =>
    have ht : inc_target ms b = b * 2 := by
      unfold inc_target
      rw [hseen]
      simp
    rw [ht] at hc ⊢
    rw [if_neg (by omega)] at hc
    by_cases hcb : c = b
    · subst hcb
      rw [if_pos rfl]
    · rw [if_neg (by omega)]
      exact hwf c hc

theorem inc_view (ms : mapping_set) (b : Nat) (ms' : mapping_set)
    (h : ms.inc b = some ms') (hwf : ms.wf) :
    ms'.view b = bump (ms.view b) ∧ ∀ c, c ≠ b → ms'.view c = ms.view c := by
  obtain ⟨hset, -⟩ := inc_mbit ms b ms' h
  constructor
  · unfold mapping_set.view
    cases hseen : ms.mbit (b * 2) with
    | false =>
      have hsh : ms.mbit (b * 2 + 1) = false := by
        cases hsh : ms.mbit (b * 2 + 1) with
        | false => rfl
        | true => rw [hwf b hsh] at hseen; cases hseen
      have ht : inc_target ms b = b * 2 := by
        unfold inc_target
        rw [hseen]
        simp
      have h1 : ms'.mbit (b * 2) = true := by
        rw [hset, ht]
        simp
      have h2 : ms'.mbit (b * 2 + 1) = false := by
        rw [hset, ht, if_neg (by omega), hsh]
      simp only [mapping_set.mbit] at h1 h2 hseen
      rw [h1, h2, hseen]
      simp [bump]
    | true =>
      have ht : inc_target ms b = b * 2 + 1 := by
        unfold inc_target
        rw [hseen]
        simp
      have h1 : ms'.mbit (b * 2) = true := by
        rw [hset, ht, if_neg (by omega)]
        exact hseen
      have h2 : ms'.mbit (b * 2 + 1) = true := by
        rw [hset, ht]
        simp
      simp only [mapping_set.mbit] at h1 h2 hseen
      rw [h1, h2, hseen]
      cases hsh : nthD ms.bits_ (b * 2 + 1) <;> simp [bump]
  · intro c hc
    have h1 : ms'.mbit (c * 2) = ms.mbit (c * 2) := by
      rw [hset]
      have : ¬ (c * 2 = inc_target ms b) := by
        unfold inc_target
        cases ms.mbit (b * 2) <;> simp <;> omega
      rw [if_neg this]
    have h2 : ms'.mbit (c * 2 + 1) = ms.mbit (c * 2 + 1) := by
      rw [hset]
      have : ¬ (c * 2 + 1 = inc_target ms b) := by
        unfold inc_target
        cases ms.mbit (b * 2) <;> simp <;> omega
      rw [if_neg this]
    simp only [mapping_set.mbit] at h1 h2
    unfold mapping_set.view
    rw [h1, h2]

/-! ### In-range and out-of-range access lemmas -/

theorem ensure_size_id (ms : mapping_set) (bit : Nat) (h : bit < ms.bits_.length) :
    ms.ensure_size bit = ms := by
  unfold mapping_set.ensure_size
  rw [if_neg (by omega)]

theorem get_bit_small (ms : mapping_set) (bit : Nat) (h : bit < ms.bits_.length) :
    ms.get_bit bit = some (ms.mbit bit, ms) := by
  unfold mapping_set.get_bit
  rw [ensure_size_id ms bit h, if_pos h]
  rfl

theorem set_bit_small (ms : mapping_set) (bit : Nat) (v : Bool) (h : bit < ms.bits_.length) :
    ms.set_bit bit v = some ⟨ms.bits_.set bit v⟩ := by
  unfold mapping_set.set_bit
  rw [ensure_size_id ms bit h, if_pos h]

theorem inc_small (ms : mapping_set) (b : Nat) (h : b * 2 + 1 < ms.bits_.length) :
    ∃ ms', ms.inc b = some ms' ∧ ms'.bits_.length = ms.bits_.length := by
  unfold mapping_set.inc
  rw [get_bit_small ms (b * 2) (by omega)]
  simp only [Option.bind_eq_bind, Option.some_bind]
  cases hseen : ms.mbit (b * 2) with
  | true =>
    simp only [if_pos]
    refine ⟨_, set_bit_small ms (b * 2 + 1) true h, ?_⟩
    exact List.length_set ms.bits_ (b * 2 + 1) true
  | false =>
    simp only [Bool.false_eq_true, if_false]
    refine ⟨_, set_bit_small ms (b * 2) true (by omega), ?_⟩
    exact List.length_set ms.bits_ (b * 2) true

theorem get_state_small (ms : mapping_set) (b : Nat) (h : b * 2 + 1 < ms.bits_.length) :
    ms.get_state b = some (ms.view b, ms) := by
  unfold mapping_set.get_state
  rw [get_bit_small ms (b * 2) (by omega)]
  simp only [Option.bind_eq_bind, Option.some_bind]
  cases hseen : ms.mbit (b * 2) with
  | false =>
    simp only [Bool.false_eq_true, if_false, pure]
    unfold mapping_set.view
    simp only [mapping_set.mbit] at hseen
    rw [hseen]
    simp
  | true =>
    simp only [if_pos]
    rw [get_bit_small ms (b * 2 + 1) h]
    simp only [Option.bind_eq_bind, Option.some_bind, pure]
    unfold mapping_set.view
    simp only [mapping_set.mbit] at hseen
    rw [hseen]
    simp only [if_pos]
    rfl

theorem incAll_small (ms : mapping_set) (l : List Nat)
    (h : ∀ x ∈ l, x * 2 + 1 < ms.bits_.length) :
    ∃ ms', incAll ms l = some ms' ∧ ms'.bits_.length = ms.bits_.length := by
  induction l generalizing ms with
  | nil => exact ⟨ms, rfl, rfl⟩
  | cons b bs ih =>
    obtain ⟨ms₁, h1, hl1⟩ := inc_small ms b (h b (List.mem_cons_self _ _))
    obtain ⟨ms', h2, hl2⟩ := ih ms₁ (fun x hx => hl1 ▸ h x (List.mem_cons_of_mem _ hx))
    refine ⟨ms', ?_, hl2.trans hl1⟩
    unfold incAll
    rw [h1]
    simpa using h2

theorem get_bit_none_at_double (ms : mapping_set) :
    ms.get_bit (ms.bits_.length * 2) = none := by
  unfold mapping_set.get_bit
  have hens : (ms.ensure_size (ms.bits_.length * 2)).bits_.length = ms.bits_.length * 2 := by
    unfold mapping_set.ensure_size
    rw [if_pos (by omega)]
    show (vec_resize _ _).length = _
    rw [length_vec_resize, grow_loop_done _ _ (by omega)]
  rw [hens, if_neg (by omega)]

theorem inc_none_at_length (ms : mapping_set) : ms.inc ms.bits_.length = none := by
  unfold mapping_set.inc
  rw [get_bit_none_at_double ms]
  rfl

theorem get_state_none_at_length (ms : mapping_set) :
    ms.get_state ms.bits_.length = none := by
  unfold mapping_set.get_state
  rw [get_bit_none_at_double ms]
  rfl

/-! ### Pass 1 as iterated bumping -/

theorem bumpN_succ (n : Nat) (s : block_state) : bumpN (n + 1) s = bumpN n (bump s) := rfl

theorem bumpN_shared (n : Nat) : bumpN n block_state.SHARED = block_state.SHARED := by
  induction n with
  | zero => rfl
  | succ n ih => exact ih

theorem bumpN_unmapped (n : Nat) : bumpN n block_state.UNMAPPED = classify n := by
  match n with
  | 0 => rfl
  | 1 => rfl
  | n + 2 =>
    have h : bumpN (n + 2) block_state.UNMAPPED = bumpN n block_state.SHARED := rfl
    rw [h, bumpN_shared]
    unfold classify
    rw [if_neg (by omega), if_neg (by omega)]

theorem classify_unmapped_iff (n : Nat) : classify n = block_state.UNMAPPED ↔ n = 0 := by
  unfold classify
  split_ifs with h1 h2 <;> simp_all

theorem classify_exclusive_iff (n : Nat) : classify n = block_state.EXCLUSIVE ↔ n = 1 := by
  unfold classify
  split_ifs with h1 h2 <;> simp_all

theorem classify_shared_iff (n : Nat) : classify n = block_state.SHARED ↔ 2 ≤ n := by
  unfold classify
  split_ifs with h1 h2 <;> simp_all
  omega

theorem incAll_wf (l : List Nat) (ms ms' : mapping_set)
    (h : incAll ms l = some ms') (hwf : ms.wf) : ms'.wf := by
  induction l generalizing ms with
  | nil =>
    unfold incAll at h
    cases h
    exact hwf
  | cons b bs ih =>
    unfold incAll at h
    cases h1 : ms.inc b with
    | none =>
      rw [h1] at h
      cases h
    | some ms₁ =>
      rw [h1] at h
      simp only [Option.some_bind] at h
      exact ih ms₁ h (inc_wf ms b ms₁ h1 hwf)

theorem incAll_view (l : List Nat) (ms ms' : mapping_set)
    (h : incAll ms l = some ms') (hwf : ms.wf) (b : Nat) :
    ms'.view b = bumpN (l.count b) (ms.view b) := by
  induction l generalizing ms with
  | nil =>
    unfold incAll at h
    cases h
    simp [bumpN]
  | cons a bs ih =>
    unfold incAll at h
    cases h1 : ms.inc a with
    | none =>
      rw [h1] at h
      cases h
    | some ms₁ =>
      rw [h1] at h
      simp only [Option.some_bind] at h
      have hv := inc_view ms a ms₁ h1 hwf
      have hrec := ih ms₁ h (inc_wf ms a ms₁ h1 hwf)
      rw [hrec, List.count_cons]
      by_cases hab : b = a
      · subst hab
        rw [if_pos (by simp), hv.1, bumpN_succ]
      · have hne : ¬ ((a == b) = true) := by
          simp only [beq_iff_eq]
          exact fun hc => hab hc.symm
        rw [if_neg hne, hv.2 b hab]
        simp

theorem count_flatten_eq_device_count (L : List (List Nat)) (b : Nat)
    (h : ∀ l ∈ L, l.Nodup) :
    L.flatten.count b = device_reference_count L b := by
  induction L with
  | nil => rfl
  | cons l L ih =>
    have hrest := ih (fun x hx => h x (List.mem_cons_of_mem _ hx))
    have hl : l.Nodup := h l (List.mem_cons_self _ _)
    rw [List.flatten_cons, List.count_append, hrest]
    unfold device_reference_count
    rw [List.countP_cons]
    by_cases hb : b ∈ l
    · rw [List.count_eq_one_of_mem hl hb]
      simp [hb]
      omega
    · rw [List.count_eq_zero_of_not_mem hb]
      simp [hb]

/-! ### Claim C1: Pass-1 classification -/

/-- C1 (amended): after Pass 1 has processed every device's mapping entries
through `inc` (each device referencing a duplicate-free list of physical
blocks), then for every physical block `b` AT WHICH THE STATE QUERY COMPLETES
(every block except those whose bit index lands exactly on a doubling
boundary of the growth loop, where the query performs an out-of-range
access): the state is Unmapped iff no device referenced `b`, Exclusive iff
exactly one device referenced `b`, Shared iff two or more devices referenced
`b`; and the classification is independent of the order in which devices and
entries were processed, for any processing order that itself completes. -/
theorem pass1_classification_of_query
    (devices : List (List Nat)) (ms msq : mapping_set) (b : Nat) (st : block_state)
    (hnd : ∀ l ∈ devices, l.Nodup)
    (hrun : incAll mapping_set.init devices.flatten = some ms)
    (hq : ms.get_state b = some (st, msq)) :
    ((st = block_state.UNMAPPED ↔ device_reference_count devices b = 0) ∧
     (st = block_state.EXCLUSIVE ↔ device_reference_count devices b = 1) ∧
     (st = block_state.SHARED ↔ 2 ≤ device_reference_count devices b)) ∧
    (∀ (devices₂ : List (List Nat)) (ms₂ msq₂ : mapping_set) (st₂ : block_state),
      List.Perm devices₂.flatten devices.flatten →
      incAll mapping_set.init devices₂.flatten = some ms₂ →
      ms₂.get_state b = some (st₂, msq₂) → st₂ = st) := by
  have hst : st = classify (devices.flatten.count b) := by
    obtain ⟨h1, -, -⟩ := get_state_some ms b st msq hq
    rw [h1, incAll_view _ _ _ hrun wf_init b, init_view, bumpN_unmapped]
  constructor
  · rw [hst, ← count_flatten_eq_device_count devices b hnd]
    exact ⟨classify_unmapped_iff _, classify_exclusive_iff _, classify_shared_iff _⟩
  · intro devices₂ ms₂ msq₂ st₂ hperm hrun₂ hq₂
    have hst₂ : st₂ = classify (devices₂.flatten.count b) := by
      obtain ⟨h1, -, -⟩ := get_state_some ms₂ b st₂ msq₂ hq₂
      rw [h1, incAll_view _ _ _ hrun₂ wf_init b, init_view, bumpN_unmapped]
    rw [hst, hst₂, hperm.count_eq b]

/-- C1 counterexample: on the worked example (device A references 1,2,3 and
device B references 3,4) Pass 1 completes, block 10240 is referenced by no
device, and yet the state query at 10240 does not return Unmapped — it
performs an out-of-range `vector<bool>` access (the resize of `ensure_size`
grows the vector to exactly 20480 bits and then index 20480 is read), so the
claim is false as stated for arbitrary physical blocks. -/
theorem pass1_classification_counterexample :
    worked_example_state 10240 = none ∧
    (incAll mapping_set.init worked_example_devices.flatten).isSome = true ∧
    worked_example_devices.flatten.contains 10240 = false := by
  have hsmall : ∀ x ∈ worked_example_devices.flatten,
      x * 2 + 1 < mapping_set.init.bits_.length := by
    rw [init_length]
    decide
  obtain ⟨ms, hms, hlen⟩ := incAll_small _ _ hsmall
  refine ⟨?_, by rw [hms]; rfl, by decide⟩
  unfold worked_example_state
  rw [hms]
  simp only [Option.some_bind]
  have h10 : ms.bits_.length = 10240 := by rw [hlen, init_length]
  have hnone : ms.get_state 10240 = none := by
    have h := get_state_none_at_length ms
    rw [h10] at h
    exact h
  rw [hnone]
  rfl

/-- C1 witness: the worked example evaluated through the amended theorem —
block 3 (referenced by both devices) is reported Shared, block 1 (referenced
only by device A) is reported Exclusive. -/
theorem pass1_classification_witness :
    worked_example_state 3 = some block_state.SHARED ∧
    worked_example_state 1 = some block_state.EXCLUSIVE := by
  have hsmall : ∀ x ∈ worked_example_devices.flatten,
      x * 2 + 1 < mapping_set.init.bits_.length := by
    rw [init_length]
    decide
  obtain ⟨ms, hms, hlen⟩ := incAll_small _ _ hsmall
  have h10 : ms.bits_.length = 10240 := by rw [hlen, init_length]
  have hnd : ∀ l ∈ worked_example_devices, l.Nodup := by decide
  constructor
  · have hq := get_state_small ms 3 (by omega)
    have hmain := pass1_classification_of_query worked_example_devices ms ms 3 (ms.view 3)
      hnd hms hq
    have hshared : ms.view 3 = block_state.SHARED :=
      hmain.1.2.2.mpr (by decide)
    unfold worked_example_state
    rw [hms]
    simp only [Option.some_bind]
    rw [hq, hshared]
    rfl
  · have hq := get_state_small ms 1 (by omega)
    have hmain := pass1_classification_of_query worked_example_devices ms ms 1 (ms.view 1)
      hnd hms hq
    have hexcl : ms.view 1 = block_state.EXCLUSIVE :=
      hmain.1.2.1.mpr (by decide)
    unfold worked_example_state
    rw [hms]
    simp only [Option.some_bind]
    rw [hq, hexcl]
    rfl

/-! ### Claim C2: growth of the backing bit vector -/

/-- C2 (code bug, evaluation at the failing input): `ensure_size` runs
`while (new_size < bit) new_size *= 2;` and therefore stops with
`new_size == bit` when the requested bit index is exactly a power-of-two
multiple of the current size; the subsequent `bits_[bit]` then reads one
past the end of the freshly resized vector.  Concretely, on a fresh tracker
(10240 bits) both `increment(10240)` and `state(10240)` access bit index
20480 of a vector resized to exactly 20480 bits — an out-of-range access,
so the growth policy does not keep every access in bounds as claimed. -/
theorem ensure_size_off_by_one :
    mapping_set.init.inc 10240 = none ∧ mapping_set.init.get_state 10240 = none := by
  constructor
  · have h := inc_none_at_length mapping_set.init
    rw [init_length] at h
    exact h
  · have h := get_state_none_at_length mapping_set.init
    rw [init_length] at h
    exact h

/-! ### Claim C8: monotonicity of the block state -/

theorem rank_bump (s : block_state) : rank s ≤ rank (bump s) := by
  cases s <;> simp [rank, bump]

theorem rank_bumpN (n : Nat) (s : block_state) : rank s ≤ rank (bumpN n s) := by
  induction n generalizing s with
  | zero => exact le_refl _
  | succ n ih => exact le_trans (rank_bump s) (ih (bump s))

theorem rank_two_eq_shared (s : block_state) (h : 2 ≤ rank s) : s = block_state.SHARED := by
  cases s <;> simp [rank] at h ⊢

theorem mbit_eq_imp_view_eq (ms₁ ms₂ : mapping_set)
    (h : ∀ j, ms₁.mbit j = ms₂.mbit j) (b : Nat) : ms₁.view b = ms₂.view b := by
  simp only [mapping_set.mbit] at h
  unfold mapping_set.view
  rw [h (b * 2), h (b * 2 + 1)]

theorem mbit_eq_imp_wf (ms₁ ms₂ : mapping_set)
    (h : ∀ j, ms₁.mbit j = ms₂.mbit j) (hwf : ms₂.wf) : ms₁.wf := by
  intro b hb
  rw [h] at hb ⊢
  exact hwf b hb

/-- C8: during Pass 1 the state of every block only moves forward along
Unmapped, Exclusive, Shared.  For any tracker reached from a fresh one,
observe block `b`, run any further sequence of increments (of `b` or any
other blocks) that completes, observe `b` again: the rank never decreases,
and a Shared block stays Shared (no reversion, no overflow — a third and
further increment leaves Shared unchanged). -/
theorem block_state_monotonic
    (l₀ l : List Nat) (ms ms₂ msq₁ msq₂ : mapping_set) (b : Nat)
    (st₁ st₂ : block_state)
    (hreach : incAll mapping_set.init l₀ = some ms)
    (hq₁ : ms.get_state b = some (st₁, msq₁))
    (hrun : incAll msq₁ l = some ms₂)
    (hq₂ : ms₂.get_state b = some (st₂, msq₂)) :
    rank st₁ ≤ rank st₂ ∧ (st₁ = block_state.SHARED → st₂ = block_state.SHARED) := by
  have hwf : ms.wf := incAll_wf l₀ mapping_set.init ms hreach wf_init
  obtain ⟨hst₁, hpres, -⟩ := get_state_some ms b st₁ msq₁ hq₁
  have hwfq : msq₁.wf := mbit_eq_imp_wf msq₁ ms hpres hwf
  obtain ⟨hst₂, -, -⟩ := get_state_some ms₂ b st₂ msq₂ hq₂
  have hview : ms₂.view b = bumpN (l.count b) (msq₁.view b) :=
    incAll_view l msq₁ ms₂ hrun hwfq b
  have hqv : msq₁.view b = ms.view b := mbit_eq_imp_view_eq msq₁ ms hpres b
  have hchain : rank st₁ ≤ rank st₂ := by
    rw [hst₁, hst₂, hview, hqv]
    exact rank_bumpN _ _
  refine ⟨hchain, fun hsh => ?_⟩
  apply rank_two_eq_shared
  calc 2 = rank st₁ := by rw [hsh]; rfl
  _ ≤ rank st₂ := hchain

/-- C8 witness: block 5 is Shared after two increments, remains Shared
after further increments of blocks 5 and 9. -/
theorem block_state_monotonic_witness :
    monotonic_example = some (block_state.SHARED, block_state.SHARED) := by
  have hs1 : ∀ x ∈ [5, 5], x * 2 + 1 < mapping_set.init.bits_.length := by
    rw [init_length]
    decide
  obtain ⟨ms, hms, hlen⟩ := incAll_small _ _ hs1
  have h10 : ms.bits_.length = 10240 := by rw [hlen, init_length]
  have hq₁ := get_state_small ms 5 (by omega)
  have hs2 : ∀ x ∈ [5, 9], x * 2 + 1 < ms.bits_.length := by
    rw [h10]
    decide
  obtain ⟨ms₂, hms₂, hlen₂⟩ := incAll_small _ _ hs2
  have hq₂ := get_state_small ms₂ 5 (by rw [hlen₂, h10]; omega)
  have hsh : ms.view 5 = block_state.SHARED := by
    rw [incAll_view [5, 5] mapping_set.init ms hms wf_init 5, init_view, bumpN_unmapped]
    decide
  have hmono := block_state_monotonic [5, 5] [5, 9] ms ms₂ ms ms₂ 5
    (ms.view 5) (ms₂.view 5) hms hq₁ hms₂ hq₂
  have hsh₂ : ms₂.view 5 = block_state.SHARED := hmono.2 hsh
  unfold monotonic_example
  rw [hms]
  simp only [Option.some_bind]
  rw [hq₁]
  simp only [Option.some_bind]
  rw [hms₂]
  simp only [Option.some_bind]
  rw [hq₂]
  simp [hsh, hsh₂]

/-! ### Claim C10: observational purity of the state query -/

theorem runOps_mbit (ops : List tracker_op) (msA msB msA₂ msB₂ : mapping_set)
    (hAB : ∀ j, msA.mbit j = msB.mbit j)
    (hA : runOps msA ops = some msA₂)
    (hB : incAll msB (incsOf ops) = some msB₂) :
    ∀ j, msA₂.mbit j = msB₂.mbit j := by
  induction ops generalizing msA msB with
  | nil =>
    unfold runOps at hA
    cases hA
    simp only [incsOf, List.filterMap_nil] at hB
    unfold incAll at hB
    cases hB
    exact hAB
  | cons op rest ih =>
    cases op with
    | inc_op b =>
      have hincs : incsOf (tracker_op.inc_op b :: rest) = b :: incsOf rest := by
        simp [incsOf]
      rw [hincs] at hB
      unfold runOps at hA
      unfold incAll at hB
      cases hA1 : msA.inc b with
      | none =>
        rw [hA1] at hA
        cases hA
      | some msA₁ =>
        cases hB1 : msB.inc b with
        | none =>
          rw [hB1] at hB
          cases hB
        | some msB₁ =>
          rw [hA1] at hA
          rw [hB1] at hB
          simp only [Option.some_bind] at hA hB
          obtain ⟨hsetA, -⟩ := inc_mbit msA b msA₁ hA1
          obtain ⟨hsetB, -⟩ := inc_mbit msB b msB₁ hB1
          have htgt : inc_target msA b = inc_target msB b := by
            unfold inc_target
            rw [hAB (b * 2)]
          have hAB₁ : ∀ j, msA₁.mbit j = msB₁.mbit j := by
            intro j
            rw [hsetA j, hsetB j, htgt, hAB j]
          exact ih msA₁ msB₁ hAB₁ hA hB
    | state_op b =>
      have hincs : incsOf (tracker_op.state_op b :: rest) = incsOf rest := by
        simp [incsOf]
      rw [hincs] at hB
      unfold runOps at hA
      cases hA1 : msA.get_state b with
      | none =>
        rw [hA1] at hA
        cases hA
      | some p =>
        obtain ⟨st, msA₁⟩ := p
        rw [hA1] at hA
        simp only [Option.some_bind] at hA
        obtain ⟨-, hpres, -⟩ := get_state_some msA b st msA₁ hA1
        exact ih msA₁ msB (fun j => (hpres j).trans (hAB j)) hA hB

/-- C10 (amended): a state query that completes is observationally pure —
it returns exactly the abstract classification of the queried block and
leaves the classification of every block unchanged (even when it grows the
backing storage); consequently an interleaving of state queries into a
sequence of increments yields the same final per-block classification as
the increments alone WHENEVER BOTH RUNS COMPLETE.  (The completion proviso
is forced: a query can grow the vector and thereby let a later increment
stay in bounds where the increment-only run would hit the out-of-range
resize boundary, see the counterexample.) -/
theorem state_query_pure :
    (∀ (ms msq : mapping_set) (b : Nat) (st : block_state),
      ms.get_state b = some (st, msq) →
      st = ms.view b ∧ ∀ c, msq.view c = ms.view c) ∧
    (∀ (ms ms₁ ms₂ : mapping_set) (ops : List tracker_op),
      runOps ms ops = some ms₁ → incAll ms (incsOf ops) = some ms₂ →
      ∀ c, ms₁.view c = ms₂.view c) := by
  constructor
  · intro ms msq b st h
    obtain ⟨hst, hpres, -⟩ := get_state_some ms b st msq h
    exact ⟨hst, fun c => mbit_eq_imp_view_eq msq ms hpres c⟩
  · intro ms ms₁ ms₂ ops h₁ h₂ c
    exact mbit_eq_imp_view_eq ms₁ ms₂ (runOps_mbit ops ms ms ms₁ ms₂ (fun j => rfl) h₁ h₂) c

/-- C10 counterexample: interleaving a state query into an increment
sequence does NOT always yield the same outcome as the increments alone.
Starting from a fresh tracker, querying block 10241 first (which grows the
vector to 40960 bits) lets a subsequent `increment(10240)` complete, while
`increment(10240)` alone performs an out-of-range access — so the state
query is observably not pure for every tracker value and block. -/
theorem state_query_growth_counterexample :
    (runOps mapping_set.init
        [tracker_op.state_op 10241, tracker_op.inc_op 10240]).isSome = true ∧
    (runOps mapping_set.init [tracker_op.inc_op 10240]).isSome = false ∧
    incsOf [tracker_op.state_op 10241, tracker_op.inc_op 10240] = [10240] := by
  have h2 : (10241 : Nat) * 2 = 20482 := by norm_num
  have hgrow : grow_loop (10240 * 2) 20482 = 40960 := by
    rw [grow_loop_step _ _ (by norm_num) (by norm_num)]
    rw [show (10240 * 2 * 2 : Nat) = 40960 by norm_num]
    exact grow_loop_done _ _ (by norm_num)
  have henslen : (mapping_set.init.ensure_size 20482).bits_.length = 40960 := by
    unfold mapping_set.ensure_size
    rw [if_pos (by rw [init_length]; norm_num)]
    show (vec_resize _ _).length = _
    rw [length_vec_resize, init_length, hgrow]
  refine ⟨?_, ?_, rfl⟩
  · have hgb : mapping_set.init.get_bit 20482 =
        some (false, mapping_set.init.ensure_size 20482) := by
      unfold mapping_set.get_bit
      rw [if_pos (by rw [henslen]; norm_num)]
      have hb : nthD (mapping_set.init.ensure_size 20482).bits_ 20482 = false := by
        have h := ensure_size_mbit mapping_set.init 20482 20482
        simp only [mapping_set.mbit] at h
        rw [h]
        show nthD (List.replicate 10240 false) 20482 = false
        exact nthD_replicate_false _ _
      rw [hb]
    have hq : mapping_set.init.get_state 10241 =
        some (block_state.UNMAPPED, mapping_set.init.ensure_size 20482) := by
      unfold mapping_set.get_state
      rw [h2, hgb]
      rfl
    simp only [runOps]
    rw [hq, Option.some_bind]
    obtain ⟨msI, hI, -⟩ :=
      inc_small (mapping_set.init.ensure_size 20482) 10240 (by rw [henslen]; norm_num)
    rw [hI]
    rfl
  · have h := inc_none_at_length mapping_set.init
    rw [init_length] at h
    simp only [runOps]
    rw [h]
    rfl

/-- C10 witness: interleaving a query of block 3 before an increment of
block 1 yields, via the amended theorem, the same classification of blocks
1 and 3 as the increment alone. -/
theorem state_query_pure_witness : purity_example_views_agree = true := by
  have hq := get_state_small mapping_set.init 3 (by rw [init_length]; omega)
  obtain ⟨m₁, h1, hlen1⟩ := inc_small mapping_set.init 1 (by rw [init_length]; omega)
  have hincs : incsOf [tracker_op.state_op 3, tracker_op.inc_op 1] = [1] := rfl
  have hrun : runOps mapping_set.init [tracker_op.state_op 3, tracker_op.inc_op 1] =
      some m₁ := by
    simp only [runOps]
    rw [hq]
    simp only [Option.some_bind]
    rw [h1]
    rfl
  have hall : incAll mapping_set.init [1] = some m₁ := by
    unfold incAll
    rw [h1]
    rfl
  have hagree := state_query_pure.2 mapping_set.init m₁ m₁
    [tracker_op.state_op 3, tracker_op.inc_op 1] hrun (by rw [hincs]; exact hall)
  unfold purity_example_views_agree
  rw [hincs, hrun, hall]
  exact decide_eq_true ⟨hagree 1, hagree 3⟩

/-! ### Claim C5: the fatal damage diagnostic -/

/-- C5 (amended): every damage notification, of either kind and in either
tree, raises the same fixed diagnostic: it states that the metadata
contains errors and directs the operator to the dedicated
metadata-integrity checker (thin_check), but it does not name the specific
damage kind or the affected device. -/
theorem damage_diagnostic_fixed :
    fatal_mapping_damage_visit mapping_damage.missing_devices =
      failure.thrown "metadata contains errors (run thin_check for details)." ∧
    fatal_mapping_damage_visit mapping_damage.missing_mappings =
      failure.thrown "metadata contains errors (run thin_check for details)." ∧
    fatal_details_damage_visit =
      failure.thrown "metadata contains errors (run thin_check for details)." :=
  ⟨rfl, rfl, rfl⟩

/-- C5 counterexample: the two distinct damage conditions raise exactly the
same failure, so the diagnostic cannot be naming the specific condition
encountered (and a fixed string names no device either). -/
theorem damage_diagnostic_not_specific :
    fatal_mapping_damage_visit mapping_damage.missing_devices =
      fatal_mapping_damage_visit mapping_damage.missing_mappings ∧
    decide (mapping_damage.missing_devices = mapping_damage.missing_mappings) = false :=
  ⟨rfl, rfl⟩

/-! ### Claim C4: any damage or missing root aborts the whole analysis -/

theorem walk_pass1_damage_error (items : List map_item) (ms : mapping_set)
    (h : walk_has_damage items = true) :
    exceptOk (walk_pass1 ms items) = false := by
  induction items generalizing ms with
  | nil => cases h
  | cons item rest ih =>
    cases item with
    | damage d => rfl
    | entry bt =>
      simp only [walk_has_damage] at h
      unfold walk_pass1
      cases h1 : ms.inc bt.block_ with
      | none => rfl
      | some ms₁ => exact ih ms₁ h

theorem pass1_bad_error (md : metadata) (ms : mapping_set) (id : Nat)
    (h : dev_bad md id = true) :
    exceptOk (pass1 md ms id) = false := by
  unfold pass1
  unfold dev_bad at h
  cases htl : md.top_level id with
  | none => rfl
  | some walk =>
    rw [htl] at h
    exact walk_pass1_damage_error walk ms h

theorem map_insert_mem_self (m : List (Nat × device_details)) (k : Nat) (v : device_details) :
    ∃ dd, (k, dd) ∈ map_insert m k v := by
  induction m with
  | nil => exact ⟨v, List.mem_singleton_self _⟩
  | cons p rest ih =>
    obtain ⟨kp, vp⟩ := p
    unfold map_insert
    by_cases h1 : k < kp
    · rw [if_pos h1]
      exact ⟨v, List.mem_cons_self _ _⟩
    · rw [if_neg h1]
      by_cases h2 : k = kp
      · rw [if_pos h2]
        exact ⟨vp, h2 ▸ List.mem_cons_self _ _⟩
      · rw [if_neg h2]
        obtain ⟨dd, hdd⟩ := ih
        exact ⟨dd, List.mem_cons_of_mem _ hdd⟩

theorem map_insert_mem_mono (m : List (Nat × device_details)) (k : Nat) (v : device_details)
    (id : Nat) (h : ∃ dd, (id, dd) ∈ m) : ∃ dd, (id, dd) ∈ map_insert m k v := by
  induction m with
  | nil =>
    obtain ⟨dd, hdd⟩ := h
    cases hdd
  | cons p rest ih =>
    obtain ⟨kp, vp⟩ := p
    obtain ⟨dd, hdd⟩ := h
    unfold map_insert
    by_cases h1 : k < kp
    · rw [if_pos h1]
      exact ⟨dd, List.mem_cons_of_mem _ hdd⟩
    · rw [if_neg h1]
      by_cases h2 : k = kp
      · rw [if_pos h2]
        exact ⟨dd, hdd⟩
      · rw [if_neg h2]
        rcases List.mem_cons.mp hdd with heq | hrest
        · exact ⟨dd, heq ▸ List.mem_cons_self _ _⟩
        · obtain ⟨dd₂, hdd₂⟩ := ih ⟨dd, hrest⟩
          exact ⟨dd₂, List.mem_cons_of_mem _ hdd₂⟩

theorem walk_device_tree_mem (items : List dev_item) (acc dmap : List (Nat × device_details))
    (hw : walk_device_tree_model items acc = Except.ok dmap) (id : Nat) :
    ((∃ dd, (id, dd) ∈ acc) ∨ (∃ dd, dev_item.dev id dd ∈ items)) →
      ∃ dd, (id, dd) ∈ dmap := by
  induction items generalizing acc with
  | nil =>
    intro h
    unfold walk_device_tree_model at hw
    cases hw
    rcases h with hacc | ⟨dd, hdd⟩
    · exact hacc
    · cases hdd
  | cons item rest ih =>
    intro h
    cases item with
    | damage => cases hw
    | dev k v =>
      unfold walk_device_tree_model at hw
      apply ih (map_insert acc k v) hw
      rcases h with hacc | ⟨dd, hdd⟩
      · exact Or.inl (map_insert_mem_mono acc k v id hacc)
      · rcases List.mem_cons.mp hdd with heq | hrest
        · injection heq with h1 h2
          subst h1
          exact Or.inl (map_insert_mem_self acc id v)
        · exact Or.inr ⟨dd, hrest⟩

theorem pass1_all_bad (md : metadata) (dmap : List (Nat × device_details))
    (ms : mapping_set) (id : Nat)
    (hmem : ∃ dd, (id, dd) ∈ dmap) (hbad : dev_bad md id = true) :
    exceptOk (pass1_all md dmap ms) = false := by
  induction dmap generalizing ms with
  | nil =>
    obtain ⟨dd, hdd⟩ := hmem
    cases hdd
  | cons p rest ih =>
    obtain ⟨k, v⟩ := p
    obtain ⟨dd, hdd⟩ := hmem
    unfold pass1_all
    cases h1 : pass1 md ms k with
    | error e => rfl
    | ok ms₁ =>
      rcases List.mem_cons.mp hdd with heq | hrest
      · exfalso
        injection heq with hik hdv
        subst hik
        have := pass1_bad_error md ms id hbad
        rw [h1] at this
        cases this
      · exact ih ms₁ ⟨dd, hrest⟩

/-- C4: if the mapping-tree walk of any cataloged device reports a damage
notification, or its top-level root lookup comes back absent, and the
requested fields make the passes run, then the entire analysis aborts: the
orchestration produces no rows for any device (also not for devices fully
scanned before the failure), and the caught-exception exit path returns
status 1 with an empty report (an out-of-range tracker access being the
only other, undefined-behaviour, outcome). -/
theorem analysis_aborts_on_damage (md : metadata) (fl : flags) (id : Nat)
    (dd : device_details)
    (hmem : dev_item.dev id dd ∈ md.details_walk)
    (hbad : dev_bad md id = true)
    (hneed : pass1_needed fl.fields = true) :
    exceptOk (ls_ md fl) = false ∧
      (ls md fl = Except.ok (1, []) ∨ ls md fl = Except.error failure.oob) := by
  have hmain : exceptOk (ls_ md fl) = false := by
    unfold ls_
    cases hw : walk_device_tree_model md.details_walk [] with
    | error e => rfl
    | ok dmap =>
      have hkey : ∃ dd₂, (id, dd₂) ∈ dmap :=
        walk_device_tree_mem md.details_walk [] dmap hw id (Or.inr ⟨dd, hmem⟩)
      rw [hneed]
      simp only [if_pos]
      cases hp : pass1_all md dmap mapping_set.init with
      | error e => rfl
      | ok ms =>
        exfalso
        have := pass1_all_bad md dmap mapping_set.init id hkey hbad
        rw [hp] at this
        cases this
  refine ⟨hmain, ?_⟩
  unfold ls
  cases hr : ls_ md fl with
  | ok rows =>
    rw [hr] at hmain
    cases hmain
  | error e =>
    cases e with
    | thrown msg => exact Or.inl rfl
    | oob => exact Or.inr rfl

/-- C4 witness: metadata whose device 2 reports missing_mappings damage
mid-walk, with exclusivity fields requested — the run yields no rows. -/
theorem analysis_aborts_on_damage_witness :
    (dev_item.dev 2 ⟨1, 0, 0, 0⟩ ∈ md_damaged.details_walk) ∧
    dev_bad md_damaged 2 = true ∧
    pass1_needed fl_exclusive.fields = true ∧
    exceptOk (ls_ md_damaged fl_exclusive) = false := by
  refine ⟨by decide, rfl, rfl, ?_⟩
  exact (analysis_aborts_on_damage md_damaged fl_exclusive 2 ⟨1, 0, 0, 0⟩
    (by decide) rfl rfl).1

/-! ### Claim C3: no consistency check between catalog and walk counts -/

theorem walk_pass1_ok (items : List map_item) (ms : mapping_set)
    (hok : map_items_ok items = true) (hlen : 10240 ≤ ms.bits_.length) :
    ∃ ms', walk_pass1 ms items = Except.ok ms' ∧ ms'.bits_.length = ms.bits_.length := by
  induction items generalizing ms with
  | nil => exact ⟨ms, rfl, rfl⟩
  | cons item rest ih =>
    cases item with
    | damage d => cases hok
    | entry bt =>
      simp only [map_items_ok, Bool.and_eq_true, decide_eq_true_eq] at hok
      obtain ⟨ms₁, h1, hl1⟩ := inc_small ms bt.block_ (by omega)
      obtain ⟨ms', h2, hl2⟩ := ih ms₁ hok.2 (by omega)
      refine ⟨ms', ?_, hl2.trans hl1⟩
      unfold walk_pass1
      rw [h1]
      exact h2

theorem walk_pass2_ok (items : List map_item) (ms : mapping_set) (e₀ : Nat)
    (hok : map_items_ok items = true) (hlen : 10240 ≤ ms.bits_.length) :
    ∃ e ms', walk_pass2 ms e₀ items = Except.ok (e, ms') ∧
      ms'.bits_.length = ms.bits_.length := by
  induction items generalizing ms e₀ with
  | nil => exact ⟨e₀, ms, rfl, rfl⟩
  | cons item rest ih =>
    cases item with
    | damage d => cases hok
    | entry bt =>
      simp only [map_items_ok, Bool.and_eq_true, decide_eq_true_eq] at hok
      have hq := get_state_small ms bt.block_ (by omega)
      obtain ⟨e, ms', h2, hl2⟩ := ih ms
        (if ms.view bt.block_ = block_state.EXCLUSIVE then (e₀ + 1) % 2 ^ 64 else e₀)
        hok.2 hlen
      refine ⟨e, ms', ?_, hl2⟩
      unfold walk_pass2
      rw [hq]
      exact h2

theorem pass1_ok (md : metadata) (ms : mapping_set) (id : Nat)
    (hok : dev_ok md id = true) (hlen : 10240 ≤ ms.bits_.length) :
    ∃ ms', pass1 md ms id = Except.ok ms' ∧ ms'.bits_.length = ms.bits_.length := by
  unfold pass1
  unfold dev_ok at hok
  cases htl : md.top_level id with
  | none =>
    rw [htl] at hok
    cases hok
  | some walk =>
    rw [htl] at hok
    exact walk_pass1_ok walk ms hok hlen

theorem count_exclusives_ok (md : metadata) (ms : mapping_set) (id : Nat)
    (hok : dev_ok md id = true) (hlen : 10240 ≤ ms.bits_.length) :
    ∃ e ms', count_exclusives md ms id = Except.ok (e, ms') ∧
      ms'.bits_.length = ms.bits_.length := by
  unfold count_exclusives
  unfold dev_ok at hok
  cases htl : md.top_level id with
  | none =>
    rw [htl] at hok
    cases hok
  | some walk =>
    rw [htl] at hok
    exact walk_pass2_ok walk ms 0 hok hlen

theorem pass1_all_ok (md : metadata) (dmap : List (Nat × device_details))
    (ms : mapping_set)
    (hok : ∀ p ∈ dmap, dev_ok md p.1 = true) (hlen : 10240 ≤ ms.bits_.length) :
    ∃ ms', pass1_all md dmap ms = Except.ok ms' ∧ ms'.bits_.length = ms.bits_.length := by
  induction dmap generalizing ms with
  | nil => exact ⟨ms, rfl, rfl⟩
  | cons p rest ih =>
    obtain ⟨k, v⟩ := p
    obtain ⟨ms₁, h1, hl1⟩ := pass1_ok md ms k (hok (k, v) (List.mem_cons_self _ _)) hlen
    obtain ⟨ms', h2, hl2⟩ := ih ms₁ (fun q hq => hok q (List.mem_cons_of_mem _ hq))
      (by omega)
    refine ⟨ms', ?_, hl2.trans hl1⟩
    unfold pass1_all
    rw [h1]
    exact h2

theorem report_rows_ok (md : metadata) (bs : Nat) (fields : List output_field)
    (some_excl : Bool) (dmap : List (Nat × device_details)) (ms : mapping_set)
    (hok : some_excl = true → ∀ p ∈ dmap, dev_ok md p.1 = true)
    (hlen : 10240 ≤ ms.bits_.length) :
    ∃ rows, report_rows md bs fields some_excl dmap ms = Except.ok rows := by
  induction dmap generalizing ms with
  | nil => exact ⟨[], rfl⟩
  | cons p rest ih =>
    obtain ⟨k, v⟩ := p
    cases hse : some_excl with
    | false =>
      subst hse
      obtain ⟨rows, h2⟩ := ih ms (fun hc => Bool.noConfusion hc) hlen
      refine ⟨fields.map (field_cell bs k v 0) :: rows, ?_⟩
      unfold report_rows
      simp only [Bool.false_eq_true, if_false, h2]
    | true =>
      subst hse
      obtain ⟨e, ms₁, h1, hl1⟩ :=
        count_exclusives_ok md ms k (hok rfl (k, v) (List.mem_cons_self _ _)) hlen
      obtain ⟨rows, h2⟩ := ih ms₁ (fun _ q hq => hok rfl q (List.mem_cons_of_mem _ hq))
        (by omega)
      refine ⟨fields.map (field_cell bs k v e) :: rows, ?_⟩
      unfold report_rows
      simp only [if_pos, h1, h2]

theorem map_insert_mem_src (acc : List (Nat × device_details)) (k : Nat) (v : device_details)
    (p : Nat × device_details) (hp : p ∈ map_insert acc k v) :
    p ∈ acc ∨ p.1 = k := by
  induction acc with
  | nil =>
    have h := List.mem_singleton.mp hp
    exact Or.inr (by rw [h])
  | cons q rest ih =>
    obtain ⟨kq, vq⟩ := q
    unfold map_insert at hp
    by_cases h1 : k < kq
    · rw [if_pos h1] at hp
      rcases List.mem_cons.mp hp with h | h
      · exact Or.inr (by rw [h])
      · exact Or.inl h
    · rw [if_neg h1] at hp
      by_cases h2 : k = kq
      · rw [if_pos h2] at hp
        exact Or.inl hp
      · rw [if_neg h2] at hp
        rcases List.mem_cons.mp hp with h | h
        · exact Or.inl (by rw [h]; exact List.mem_cons_self _ _)
        · rcases ih h with hsrc | hkey
          · exact Or.inl (List.mem_cons_of_mem _ hsrc)
          · exact Or.inr hkey

theorem dev_items_ok_no_damage (md : metadata) (items : List dev_item)
    (h : dev_items_ok md items = true) : ∀ it ∈ items, it ≠ dev_item.damage := by
  induction items with
  | nil =>
    intro it hit
    cases hit
  | cons item rest ih =>
    intro it hit
    cases item with
    | damage => cases h
    | dev k v =>
      simp only [dev_items_ok, Bool.and_eq_true] at h
      rcases List.mem_cons.mp hit with heq | hrest
      · rw [heq]
        intro hc
        cases hc
      · exact ih h.2 it hrest

theorem walk_device_tree_ok_of_items (items : List dev_item)
    (hnd : ∀ it ∈ items, it ≠ dev_item.damage) :
    ∀ acc, ∃ dmap, walk_device_tree_model items acc = Except.ok dmap := by
  induction items with
  | nil => exact fun acc => ⟨acc, rfl⟩
  | cons item rest ih =>
    intro acc
    cases item with
    | damage => exact absurd rfl (hnd _ (List.mem_cons_self _ _))
    | dev k v => exact ih (fun it hit => hnd it (List.mem_cons_of_mem _ hit)) (map_insert acc k v)

theorem walk_device_tree_devok (md : metadata) (items : List dev_item) :
    dev_items_ok md items = true →
    ∀ acc dmap, walk_device_tree_model items acc = Except.ok dmap →
    (∀ p ∈ acc, dev_ok md p.1 = true) →
    ∀ p ∈ dmap, dev_ok md p.1 = true := by
  induction items with
  | nil =>
    intro hitems acc dmap hw hacc
    unfold walk_device_tree_model at hw
    cases hw
    exact hacc
  | cons item rest ih =>
    intro hitems acc dmap hw hacc
    cases item with
    | damage => cases hw
    | dev k v =>
      simp only [dev_items_ok, Bool.and_eq_true] at hitems
      unfold walk_device_tree_model at hw
      refine ih hitems.2 (map_insert acc k v) dmap hw ?_
      intro p hp
      rcases map_insert_mem_src acc k v p hp with hsrc | hkey
      · exact hacc p hsrc
      · rw [hkey]
        exact hitems.1

/-- C3 (amended): the analyzer performs no consistency check between the
catalog's mapped-block count and the number of mapping entries actually
visited.  Whenever the walks themselves succeed (roots resolve, no damage,
blocks within the tracker's initial capacity), the whole run succeeds — for
any requested fields and regardless of whether the counts agree — and
silently derives its figures from the catalog count. -/
theorem no_count_consistency_check (md : metadata) (fl : flags)
    (hok : dev_items_ok md md.details_walk = true) :
    exceptOk (ls_ md fl) = true := by
  unfold ls_
  cases hw : walk_device_tree_model md.details_walk [] with
  | error e =>
    exfalso
    obtain ⟨dmap, hdmap⟩ := walk_device_tree_ok_of_items md.details_walk
      (dev_items_ok_no_damage md md.details_walk hok) []
    rw [hdmap] at hw
    cases hw
  | ok dmap =>
    have hdev : ∀ p ∈ dmap, dev_ok md p.1 = true :=
      walk_device_tree_devok md md.details_walk hok [] dmap hw (by intro p hp; cases hp)
    have hinit : 10240 ≤ mapping_set.init.bits_.length := by
      rw [init_length]
    cases hpn : pass1_needed fl.fields with
    | false =>
      simp only [Bool.false_eq_true, if_false]
      obtain ⟨rows, hrows⟩ := report_rows_ok md md.data_block_size fl.fields false dmap
        mapping_set.init (fun hc => Bool.noConfusion hc) hinit
      show exceptOk (report_rows md md.data_block_size fl.fields false dmap
        mapping_set.init) = true
      rw [hrows]
      rfl
    | true =>
      simp only [if_pos]
      obtain ⟨ms, hms, hlms⟩ := pass1_all_ok md dmap mapping_set.init hdev hinit
      rw [hms]
      obtain ⟨rows, hrows⟩ := report_rows_ok md md.data_block_size fl.fields true dmap ms
        (fun _ => hdev) (by omega)
      show exceptOk (report_rows md md.data_block_size fl.fields true dmap ms) = true
      rw [hrows]
      rfl

/-- C3 counterexample: the catalog reports 5 mapped blocks for device 0,
its mapping-tree walk visits exactly 1 entry, and the analyzer raises no
error of any kind — it completes and emits a row computed from the
mismatched counts (shared = 5 - 1 = 4).  No InvariantViolation (nor any
other error) distinct from FatalMetadataDamage is signalled. -/
theorem mismatch_not_detected :
    walk_entry_count [map_item.entry ⟨1, 0⟩] = 1 ∧
    dd_mismatch.mapped_blocks_ = 5 ∧
    md_mismatch.top_level 0 = some [map_item.entry ⟨1, 0⟩] ∧
    ls_ md_mismatch fl_exclusive =
      Except.ok [[field_value.num 0, field_value.num 5, field_value.num 1,
        field_value.num 4]] := by
  obtain ⟨ms₁, hinc, hlen₁⟩ := inc_small mapping_set.init 1 (by rw [init_length]; omega)
  have hview₁ : ms₁.view 1 = block_state.EXCLUSIVE := by
    have hv := inc_view mapping_set.init 1 ms₁ hinc wf_init
    rw [hv.1, init_view]
    rfl
  have hq : ms₁.get_state 1 = some (block_state.EXCLUSIVE, ms₁) := by
    have h := get_state_small ms₁ 1 (by rw [hlen₁, init_length]; omega)
    rw [hview₁] at h
    exact h
  have htl : md_mismatch.top_level 0 = some [map_item.entry ⟨1, 0⟩] := rfl
  have hwp1 : walk_pass1 mapping_set.init [map_item.entry ⟨1, 0⟩] = Except.ok ms₁ := by
    simp only [walk_pass1, hinc]
  have hpass1 : pass1 md_mismatch mapping_set.init 0 = Except.ok ms₁ := by
    simp only [pass1, htl]
    exact hwp1
  have hp1all : pass1_all md_mismatch [(0, dd_mismatch)] mapping_set.init =
      Except.ok ms₁ := by
    simp only [pass1_all, hpass1]
  have hwp2 : walk_pass2 ms₁ 0 [map_item.entry ⟨1, 0⟩] = Except.ok (1, ms₁) := by
    simp only [walk_pass2, hq, eq_self_iff_true, if_true]
    norm_num
  have hce : count_exclusives md_mismatch ms₁ 0 = Except.ok (1, ms₁) := by
    simp only [count_exclusives, htl]
    exact hwp2
  have hrow : fl_exclusive.fields.map (field_cell 128 0 dd_mismatch 1) =
      [field_value.num 0, field_value.num 5, field_value.num 1, field_value.num 4] := rfl
  have hrrows : report_rows md_mismatch 128 fl_exclusive.fields true
      [(0, dd_mismatch)] ms₁ =
      Except.ok [[field_value.num 0, field_value.num 5, field_value.num 1,
        field_value.num 4]] := by
    simp only [report_rows, eq_self_iff_true, if_true, hce, hrow]
  refine ⟨rfl, rfl, rfl, ?_⟩
  have hpn : pass1_needed fl_exclusive.fields = true := rfl
  have hdw : walk_device_tree_model md_mismatch.details_walk [] =
      Except.ok [(0, dd_mismatch)] := rfl
  have hbs : md_mismatch.data_block_size = 128 := rfl
  simp only [ls_, hdw, hpn, eq_self_iff_true, if_true, hp1all, hbs, hrrows]

/-- C3 witness for the amended claim: the mismatched metadata satisfies the
walk-success conditions, so the analyzer completes without any error. -/
theorem no_count_consistency_check_witness :
    dev_items_ok md_mismatch md_mismatch.details_walk = true ∧
    exceptOk (ls_ md_mismatch fl_exclusive) = true :=
  ⟨rfl, no_count_consistency_check md_mismatch fl_exclusive rfl⟩

/-! ### The shape of the report rows -/

theorem cells_of_map (tgt : output_field) (fields : List output_field)
    (g : output_field → field_value) :
    cells_of tgt fields (fields.map g) = List.replicate (fields.count tgt) (g tgt) := by
  induction fields with
  | nil => rfl
  | cons f rest ih =>
    rw [List.map_cons, List.count_cons]
    by_cases hf : f = tgt
    · subst hf
      rw [show cells_of f (f :: rest) (g f :: rest.map g) = g f :: cells_of f rest (rest.map g)
          from by rw [cells_of, if_pos rfl]]
      rw [ih, show (rest.count f + if (f == f) = true then 1 else 0) = rest.count f + 1
          from by simp]
      rfl
    · rw [show cells_of tgt (f :: rest) (g f :: rest.map g) = cells_of tgt rest (rest.map g)
          from by rw [cells_of, if_neg hf]]
      rw [ih, show (rest.count tgt + if (f == tgt) = true then 1 else 0) = rest.count tgt
          from by simp [hf]]

theorem report_rows_spec (md : metadata) (bs : Nat) (fields : List output_field)
    (some_excl : Bool) (dmap : List (Nat × device_details)) (ms : mapping_set)
    (rows : List (List field_value))
    (h : report_rows md bs fields some_excl dmap ms = Except.ok rows) :
    List.Forall₂ (fun (p : Nat × device_details) row => ∃ e,
      row = fields.map (field_cell bs p.1 p.2 e) ∧
      (some_excl = false → e = 0) ∧
      (some_excl = true →
        ∃ msI msO, count_exclusives md msI p.1 = Except.ok (e, msO))) dmap rows := by
  induction dmap generalizing ms rows with
  | nil =>
    unfold report_rows at h
    cases h
    exact List.Forall₂.nil
  | cons p rest ih =>
    obtain ⟨k, v⟩ := p
    unfold report_rows at h
    cases hx : (if some_excl then count_exclusives md ms k else Except.ok (0, ms)) with
    | error e =>
      rw [hx] at h
      cases h
    | ok pr =>
      obtain ⟨e, ms₁⟩ := pr
      simp only [hx] at h
      cases hr : report_rows md bs fields some_excl rest ms₁ with
      | error e2 =>
        rw [hr] at h
        cases h
      | ok rows₁ =>
        rw [hr] at h
        cases h
        refine List.Forall₂.cons ⟨e, rfl, ?_, ?_⟩ (ih ms₁ rows₁ hr)
        · intro hfalse
          subst hfalse
          simp only [Bool.false_eq_true, if_false, Except.ok.injEq, Prod.mk.injEq] at hx
          exact hx.1.symm
        · intro htrue
          subst htrue
          simp only [if_pos] at hx
          exact ⟨ms, ms₁, hx⟩

/-! ### Claim C6: pass-skipping and its equivalence -/

theorem map_cells_of_spec (bs : Nat) (fields : List output_field)
    (dmap : List (Nat × device_details)) (rows : List (List field_value))
    (hf : List.Forall₂ (fun (p : Nat × device_details) row =>
      ∃ e, row = fields.map (field_cell bs p.1 p.2 e)) dmap rows) :
    rows.map (cells_of output_field.MAPPED_BLOCKS fields) =
      dmap.map (fun p => List.replicate (fields.count output_field.MAPPED_BLOCKS)
        (field_value.num p.2.mapped_blocks_)) := by
  induction hf with
  | nil => rfl
  | cons hpr hrest ihf =>
    obtain ⟨e, hrow⟩ := hpr
    rw [List.map_cons, List.map_cons, ihf, hrow, cells_of_map]
    rfl

theorem report_rows_false_md (md₁ md₂ : metadata) (bs : Nat) (fields : List output_field)
    (dmap : List (Nat × device_details)) (ms : mapping_set) :
    report_rows md₁ bs fields false dmap ms = report_rows md₂ bs fields false dmap ms := by
  induction dmap generalizing ms with
  | nil => rfl
  | cons p rest ih =>
    obtain ⟨k, v⟩ := p
    unfold report_rows
    simp only [Bool.false_eq_true, if_false]
    rw [ih ms]

/-- C6: Pass 1 and Pass 2 run exactly when the requested field list contains
an exclusivity-dependent field.  `pass1_needed` is true iff some requested
field is one of the eight exclusive/shared variants; when it is false the
whole run never consults the top-level tree or any mapping tree (the result
is identical for arbitrary different mapping data), and the
MAPPED_BLOCKS cells any two successful runs report for the same metadata are
identical regardless of whether the exclusivity passes were executed. -/
theorem skip_pass_equivalence :
    (∀ fields : List output_field,
      pass1_needed fields = true ↔ ∃ f ∈ fields, is_exclusive_field f = true) ∧
    (∀ (bs : Nat) (dw : List dev_item) (tl₁ tl₂ : Nat → Option (List map_item)) (fl : flags),
      pass1_needed fl.fields = false →
      ls_ ⟨bs, dw, tl₁⟩ fl = ls_ ⟨bs, dw, tl₂⟩ fl) ∧
    (∀ (md : metadata) (fl₁ fl₂ : flags) (rows₁ rows₂ : List (List field_value)),
      ls_ md fl₁ = Except.ok rows₁ → ls_ md fl₂ = Except.ok rows₂ →
      fl₁.fields.count output_field.MAPPED_BLOCKS =
        fl₂.fields.count output_field.MAPPED_BLOCKS →
      rows₁.map (cells_of output_field.MAPPED_BLOCKS fl₁.fields) =
        rows₂.map (cells_of output_field.MAPPED_BLOCKS fl₂.fields)) := by
  refine ⟨?_, ?_, ?_⟩
  · intro fields
    induction fields with
    | nil =>
      simp [pass1_needed]
    | cons f rest ih =>
      unfold pass1_needed
      by_cases hf : f = output_field.EXCLUSIVE_BLOCKS ∨ f = output_field.SHARED_BLOCKS ∨
          f = output_field.EXCLUSIVE_SECTORS ∨ f = output_field.SHARED_SECTORS ∨
          f = output_field.EXCLUSIVE_BYTES ∨ f = output_field.SHARED_BYTES ∨
          f = output_field.EXCLUSIVE ∨ f = output_field.SHARED
      · rw [if_pos hf]
        simp only [true_iff]
        exact ⟨f, List.mem_cons_self _ _, decide_eq_true hf⟩
      · rw [if_neg hf, ih]
        constructor
        · intro ⟨g, hg, hge⟩
          exact ⟨g, List.mem_cons_of_mem _ hg, hge⟩
        · intro ⟨g, hg, hge⟩
          rcases List.mem_cons.mp hg with heq | hrest
          · exfalso
            subst heq
            exact hf (of_decide_eq_true hge)
          · exact ⟨g, hrest, hge⟩
  · intro bs dw tl₁ tl₂ fl h
    unfold ls_
    cases hw : walk_device_tree_model dw [] with
    | error e => rfl
    | ok dmap =>
      rw [h]
      simp only [Bool.false_eq_true, if_false]
      exact report_rows_false_md _ _ bs fl.fields dmap mapping_set.init
  · intro md fl₁ fl₂ rows₁ rows₂ h₁ h₂ hc
    unfold ls_ at h₁ h₂
    cases hw : walk_device_tree_model md.details_walk [] with
    | error e =>
      simp only [hw] at h₁
      cases h₁
    | ok dmap =>
      simp only [hw] at h₁ h₂
      have hcells : ∀ (fl : flags) (rows : List (List field_value)),
          (match (if pass1_needed fl.fields then pass1_all md dmap mapping_set.init
                  else Except.ok mapping_set.init) with
            | Except.error e => Except.error e
            | Except.ok ms =>
              report_rows md md.data_block_size fl.fields (pass1_needed fl.fields) dmap ms) =
            Except.ok rows →
          rows.map (cells_of output_field.MAPPED_BLOCKS fl.fields) =
            dmap.map (fun p => List.replicate (fl.fields.count output_field.MAPPED_BLOCKS)
              (field_value.num p.2.mapped_blocks_)) := by
        intro fl rows h
        cases hp : (if pass1_needed fl.fields then pass1_all md dmap mapping_set.init
            else Except.ok mapping_set.init) with
        | error e =>
          rw [hp] at h
          cases h
        | ok ms =>
          rw [hp] at h
          have hspec := report_rows_spec md md.data_block_size fl.fields
            (pass1_needed fl.fields) dmap ms rows h
          exact map_cells_of_spec md.data_block_size fl.fields dmap rows
            (hspec.imp (fun _ _ hab => hab.elim (fun e he => ⟨e, he.1⟩)))
      rw [hcells fl₁ rows₁ h₁, hcells fl₂ rows₂ h₂, hc]

/-- C6 witness: the default field list (DEV, MAPPED, CREATE_TIME,
SNAP_TIME) needs no passes, the run is unchanged when every mapping tree is
swapped for damaged data (the trees are never consulted), and the
exclusivity field list makes `pass1_needed` true. -/
theorem skip_pass_equivalence_witness :
    pass1_needed default_flags.fields = false ∧
    ls_ ⟨128, dw_single, tl_none⟩ default_flags =
      ls_ ⟨128, dw_single, tl_damaged⟩ default_flags ∧
    (pass1_needed fl_exclusive.fields = true ↔
      ∃ f ∈ fl_exclusive.fields, is_exclusive_field f = true) := by
  refine ⟨rfl, ?_, ?_⟩
  · exact skip_pass_equivalence.2.1 128 dw_single tl_none tl_damaged default_flags rfl
  · exact skip_pass_equivalence.1 fl_exclusive.fields

/-! ### Claim C7: shared counts are derived by 64-bit subtraction -/

/-- C7: in every successful run, each device's SHARED_BLOCKS cell is the
unsigned 64-bit difference between the catalog's mapped-block count and the
single exclusive tally e of that device (which, when the passes ran, is the
value produced by `count_exclusives`, the Pass-2 walk — nothing tallies
shared blocks separately); and whenever e does not exceed the mapped count
(with the count a 64-bit value), exclusive + shared = mapped as natural
numbers. -/
theorem shared_is_derived :
    (∀ (md : metadata) (fl : flags) (dmap : List (Nat × device_details))
        (rows : List (List field_value)),
      walk_device_tree_model md.details_walk [] = Except.ok dmap →
      ls_ md fl = Except.ok rows →
      List.Forall₂ (fun (p : Nat × device_details) row => ∃ e,
        cells_of output_field.EXCLUSIVE_BLOCKS fl.fields row =
          List.replicate (fl.fields.count output_field.EXCLUSIVE_BLOCKS)
            (field_value.num e) ∧
        cells_of output_field.SHARED_BLOCKS fl.fields row =
          List.replicate (fl.fields.count output_field.SHARED_BLOCKS)
            (field_value.num (u64_sub p.2.mapped_blocks_ e)) ∧
        (pass1_needed fl.fields = true →
          ∃ msI msO, count_exclusives md msI p.1 = Except.ok (e, msO)) ∧
        (pass1_needed fl.fields = false → e = 0)) dmap rows) ∧
    (∀ m e : Nat, e ≤ m → m < 2 ^ 64 → e + u64_sub m e = m) := by
  constructor
  · intro md fl dmap rows hdw hls
    unfold ls_ at hls
    simp only [hdw] at hls
    cases hp : (if pass1_needed fl.fields then pass1_all md dmap mapping_set.init
        else Except.ok mapping_set.init) with
    | error e =>
      rw [hp] at hls
      cases hls
    | ok ms =>
      simp only [hp] at hls
      have hspec := report_rows_spec md md.data_block_size fl.fields
        (pass1_needed fl.fields) dmap ms rows hls
      refine hspec.imp ?_
      intro p row hab
      obtain ⟨e, hrow, hf, ht⟩ := hab
      refine ⟨e, ?_, ?_, ht, hf⟩
      · rw [hrow, cells_of_map]
        rfl
      · rw [hrow, cells_of_map]
        rfl
  · intro m e h1 h2
    unfold u64_sub u64_mod
    have hm : m % 2 ^ 64 = m := Nat.mod_eq_of_lt h2
    have he : e % 2 ^ 64 = e := Nat.mod_eq_of_lt (lt_of_le_of_lt h1 h2)
    rw [hm, he]
    have hM : (2 : Nat) ^ 64 = 18446744073709551616 := by norm_num
    rw [hM] at h2 ⊢
    omega

/-- C7 witness: one device with mapped count 1 and one exclusive entry —
the reported shared cell is the 64-bit difference 1 - 1 = 0, and
exclusive + shared = mapped. -/
theorem shared_is_derived_witness :
    (walk_device_tree_model md_single.details_walk [] =
      Except.ok [(7, ⟨1, 5, 6, 7⟩)]) ∧
    (ls_ md_single fl_exclusive = Except.ok
      [[field_value.num 7, field_value.num 1, field_value.num 1, field_value.num 0]]) ∧
    (cells_of output_field.SHARED_BLOCKS fl_exclusive.fields
        [field_value.num 7, field_value.num 1, field_value.num 1, field_value.num 0] =
      List.replicate (fl_exclusive.fields.count output_field.SHARED_BLOCKS)
        (field_value.num (u64_sub 1 1))) ∧
    1 + u64_sub 1 1 = 1 := by
  obtain ⟨ms₁, hinc, hlen₁⟩ := inc_small mapping_set.init 2 (by rw [init_length]; omega)
  have hview₁ : ms₁.view 2 = block_state.EXCLUSIVE := by
    have hv := inc_view mapping_set.init 2 ms₁ hinc wf_init
    rw [hv.1, init_view]
    rfl
  have hq : ms₁.get_state 2 = some (block_state.EXCLUSIVE, ms₁) := by
    have h := get_state_small ms₁ 2 (by rw [hlen₁, init_length]; omega)
    rw [hview₁] at h
    exact h
  have htl : md_single.top_level 7 = some [map_item.entry ⟨2, 0⟩] := rfl
  have hwp1 : walk_pass1 mapping_set.init [map_item.entry ⟨2, 0⟩] = Except.ok ms₁ := by
    simp only [walk_pass1, hinc]
  have hpass1 : pass1 md_single mapping_set.init 7 = Except.ok ms₁ := by
    simp only [pass1, htl]
    exact hwp1
  have hp1all : pass1_all md_single [(7, ⟨1, 5, 6, 7⟩)] mapping_set.init =
      Except.ok ms₁ := by
    simp only [pass1_all, hpass1]
  have hwp2 : walk_pass2 ms₁ 0 [map_item.entry ⟨2, 0⟩] = Except.ok (1, ms₁) := by
    simp only [walk_pass2, hq, eq_self_iff_true, if_true]
    norm_num
  have hce : count_exclusives md_single ms₁ 7 = Except.ok (1, ms₁) := by
    simp only [count_exclusives, htl]
    exact hwp2
  have hrow : fl_exclusive.fields.map (field_cell 64 7 ⟨1, 5, 6, 7⟩ 1) =
      [field_value.num 7, field_value.num 1, field_value.num 1, field_value.num 0] := rfl
  have hrrows : report_rows md_single 64 fl_exclusive.fields true
      [(7, (⟨1, 5, 6, 7⟩ : device_details))] ms₁ =
      Except.ok [[field_value.num 7, field_value.num 1, field_value.num 1,
        field_value.num 0]] := by
    simp only [report_rows, eq_self_iff_true, if_true, hce, hrow]
  have hpn : pass1_needed fl_exclusive.fields = true := rfl
  have hdw : walk_device_tree_model md_single.details_walk [] =
      Except.ok [(7, ⟨1, 5, 6, 7⟩)] := rfl
  have hbs : md_single.data_block_size = 64 := rfl
  have hls : ls_ md_single fl_exclusive = Except.ok
      [[field_value.num 7, field_value.num 1, field_value.num 1, field_value.num 0]] := by
    simp only [ls_, hdw, hpn, eq_self_iff_true, if_true, hp1all, hbs, hrrows]
  refine ⟨hdw, hls, ?_, shared_is_derived.2 1 1 (le_refl 1) (by norm_num)⟩
  have hforall := shared_is_derived.1 md_single fl_exclusive [(7, ⟨1, 5, 6, 7⟩)]
    [[field_value.num 7, field_value.num 1, field_value.num 1, field_value.num 0]] hdw hls
  exact rfl

/-! ### Claim C9: the device catalog is key-sorted and duplicate-free -/

theorem map_insert_pairwise (m : List (Nat × device_details)) (k : Nat) (v : device_details)
    (h : List.Pairwise (fun p q : Nat × device_details => p.1 < q.1) m) :
    List.Pairwise (fun p q : Nat × device_details => p.1 < q.1) (map_insert m k v) := by
  induction m with
  | nil =>
    unfold map_insert
    exact List.pairwise_singleton _ _
  | cons q rest ih =>
    obtain ⟨kq, vq⟩ := q
    rw [List.pairwise_cons] at h
    unfold map_insert
    by_cases h1 : k < kq
    · rw [if_pos h1]
      refine List.Pairwise.cons ?_ (List.Pairwise.cons h.1 h.2)
      intro q hq
      rcases List.mem_cons.mp hq with heq | hrest
      · rw [heq]
        exact h1
      · have := h.1 q hrest
        show k < q.1
        omega
    · rw [if_neg h1]
      by_cases h2 : k = kq
      · rw [if_pos h2]
        exact List.Pairwise.cons h.1 h.2
      · rw [if_neg h2]
        refine List.Pairwise.cons ?_ (ih h.2)
        intro q hq
        rcases map_insert_mem_src rest k v q hq with hsrc | hkey
        · exact h.1 q hsrc
        · show kq < q.1
          rw [hkey]
          omega

theorem walk_device_tree_pairwise (items : List dev_item) :
    ∀ acc dmap, walk_device_tree_model items acc = Except.ok dmap →
    List.Pairwise (fun p q : Nat × device_details => p.1 < q.1) acc →
    List.Pairwise (fun p q : Nat × device_details => p.1 < q.1) dmap := by
  induction items with
  | nil =>
    intro acc dmap hw hs
    unfold walk_device_tree_model at hw
    cases hw
    exact hs
  | cons item rest ih =>
    intro acc dmap hw hs
    cases item with
    | damage => cases hw
    | dev k v =>
      unfold walk_device_tree_model at hw
      exact ih (map_insert acc k v) dmap hw (map_insert_pairwise acc k v hs)

theorem walk_device_tree_mem_iff (items : List dev_item) :
    ∀ acc dmap, walk_device_tree_model items acc = Except.ok dmap → ∀ id,
    ((∃ dd, (id, dd) ∈ dmap) ↔
      (∃ dd, (id, dd) ∈ acc) ∨ (∃ dd, dev_item.dev id dd ∈ items)) := by
  induction items with
  | nil =>
    intro acc dmap hw id
    unfold walk_device_tree_model at hw
    cases hw
    constructor
    · exact Or.inl
    · intro h
      rcases h with hacc | ⟨dd, hdd⟩
      · exact hacc
      · cases hdd
  | cons item rest ih =>
    intro acc dmap hw id
    cases item with
    | damage => cases hw
    | dev k v =>
      unfold walk_device_tree_model at hw
      have hrec := ih (map_insert acc k v) dmap hw id
      constructor
      · intro h
        rcases hrec.mp h with hins | hitems
        · obtain ⟨dd, hdd⟩ := hins
          rcases map_insert_mem_src acc k v (id, dd) hdd with hsrc | hkey
          · exact Or.inl ⟨dd, hsrc⟩
          · refine Or.inr ⟨v, ?_⟩
            have hik : id = k := hkey
            rw [hik]
            exact List.mem_cons_self _ _
        · obtain ⟨dd, hdd⟩ := hitems
          exact Or.inr ⟨dd, List.mem_cons_of_mem _ hdd⟩
      · intro h
        apply hrec.mpr
        rcases h with hacc | ⟨dd, hdd⟩
        · exact Or.inl (map_insert_mem_mono acc k v id hacc)
        · rcases List.mem_cons.mp hdd with heq | hrest
          · injection heq with hik hdv
            subst hik
            exact Or.inl (map_insert_mem_self acc id v)
          · exact Or.inr ⟨dd, hrest⟩

theorem sorted_nat_ext (l₁ : List Nat) :
    ∀ l₂ : List Nat, List.Pairwise (fun a b : Nat => a < b) l₁ →
    List.Pairwise (fun a b : Nat => a < b) l₂ →
    (∀ x, x ∈ l₁ ↔ x ∈ l₂) → l₁ = l₂ := by
  induction l₁ with
  | nil =>
    intro l₂ h₁ h₂ hm
    cases l₂ with
    | nil => rfl
    | cons b t₂ =>
      exfalso
      have := (hm b).mpr (List.mem_cons_self _ _)
      cases this
  | cons a t ih =>
    intro l₂ h₁ h₂ hm
    cases l₂ with
    | nil =>
      exfalso
      have := (hm a).mp (List.mem_cons_self _ _)
      cases this
    | cons b t₂ =>
      rw [List.pairwise_cons] at h₁ h₂
      have hab : a = b := by
        have ha2 : a ∈ b :: t₂ := (hm a).mp (List.mem_cons_self _ _)
        have hb1 : b ∈ a :: t := (hm b).mpr (List.mem_cons_self _ _)
        rcases List.mem_cons.mp ha2 with h | h
        · exact h
        rcases List.mem_cons.mp hb1 with h' | h'
        · exact h'.symm
        exfalso
        have hba : b < a := h₂.1 a h
        have hab2 : a < b := h₁.1 b h'
        omega
      subst hab
      have htails : ∀ x, x ∈ t ↔ x ∈ t₂ := by
        intro x
        constructor
        · intro hx
          have hx2 := (hm x).mp (List.mem_cons_of_mem _ hx)
          rcases List.mem_cons.mp hx2 with heq | h
          · exfalso
            have := h₁.1 x hx
            omega
          · exact h
        · intro hx
          have hx2 := (hm x).mpr (List.mem_cons_of_mem _ hx)
          rcases List.mem_cons.mp hx2 with heq | h
          · exfalso
            have := h₂.1 x hx
            omega
          · exact h
      rw [ih t₂ h₁.2 h₂.2 htails]

theorem mem_map_fst_iff (l : List (Nat × device_details)) (id : Nat) :
    id ∈ l.map Prod.fst ↔ ∃ dd, (id, dd) ∈ l := by
  rw [List.mem_map]
  constructor
  · intro ⟨p, hp, he⟩
    exact ⟨p.2, by rw [← he]; exact hp⟩
  · intro ⟨dd, hdd⟩
    exact ⟨(id, dd), hdd, rfl⟩

/-- C9: the device catalog presents every discovered device exactly once,
in ascending id order, independently of the delivery order of the
device-tree walk, and the rows of a successful report follow the catalog
order (here read off the DEV_ID column when it heads the field list). -/
theorem device_catalog_sorted (items : List dev_item)
    (dmap : List (Nat × device_details))
    (h : walk_device_tree_model items [] = Except.ok dmap) :
    List.Pairwise (fun p q : Nat × device_details => p.1 < q.1) dmap ∧
    (∀ id, (∃ dd, (id, dd) ∈ dmap) ↔ (∃ dd, dev_item.dev id dd ∈ items)) ∧
    (∀ (items₂ : List dev_item) (dmap₂ : List (Nat × device_details)),
      List.Perm items₂ items →
      walk_device_tree_model items₂ [] = Except.ok dmap₂ →
      dmap₂.map Prod.fst = dmap.map Prod.fst) ∧
    (∀ (md : metadata) (fl : flags) (rows : List (List field_value)),
      md.details_walk = items → ls_ md fl = Except.ok rows →
      fl.fields.head? = some output_field.DEV_ID →
      rows.map List.head? = dmap.map (fun p => some (field_value.num p.1))) := by
  have hmem : ∀ id, (∃ dd, (id, dd) ∈ dmap) ↔ (∃ dd, dev_item.dev id dd ∈ items) := by
    intro id
    rw [walk_device_tree_mem_iff items [] dmap h id]
    constructor
    · intro hr
      rcases hr with ⟨dd, hdd⟩ | hi
      · cases hdd
      · exact hi
    · exact Or.inr
  have hpw : List.Pairwise (fun p q : Nat × device_details => p.1 < q.1) dmap :=
    walk_device_tree_pairwise items [] dmap h List.Pairwise.nil
  refine ⟨hpw, hmem, ?_, ?_⟩
  · intro items₂ dmap₂ hperm hw₂
    have hpw₂ : List.Pairwise (fun p q : Nat × device_details => p.1 < q.1) dmap₂ :=
      walk_device_tree_pairwise items₂ [] dmap₂ hw₂ List.Pairwise.nil
    have hmem₂ : ∀ id, (∃ dd, (id, dd) ∈ dmap₂) ↔ (∃ dd, dev_item.dev id dd ∈ items₂) := by
      intro id
      rw [walk_device_tree_mem_iff items₂ [] dmap₂ hw₂ id]
      constructor
      · intro hr
        rcases hr with ⟨dd, hdd⟩ | hi
        · cases hdd
        · exact hi
      · exact Or.inr
    apply sorted_nat_ext
    · exact hpw₂.map Prod.fst (fun a b hab => hab)
    · exact hpw.map Prod.fst (fun a b hab => hab)
    · intro x
      rw [mem_map_fst_iff, mem_map_fst_iff, hmem₂ x, hmem x]
      constructor
      · intro ⟨dd, hdd⟩
        exact ⟨dd, hperm.mem_iff.mp hdd⟩
      · intro ⟨dd, hdd⟩
        exact ⟨dd, hperm.mem_iff.mpr hdd⟩
  · intro md fl rows hitems hls hhead
    unfold ls_ at hls
    rw [hitems] at hls
    simp only [h] at hls
    cases hp : (if pass1_needed fl.fields then pass1_all md dmap mapping_set.init
        else Except.ok mapping_set.init) with
    | error e =>
      rw [hp] at hls
      cases hls
    | ok ms =>
      simp only [hp] at hls
      have hspec := report_rows_spec md md.data_block_size fl.fields
        (pass1_needed fl.fields) dmap ms rows hls
      clear hls hp hmem hpw h
      induction hspec with
      | nil => rfl
      | cons hpr hrest ihf =>
        obtain ⟨e, hrow, -, -⟩ := hpr
        rw [List.map_cons, List.map_cons, ihf, hrow]
        congr 1
        cases hfields : fl.fields with
        | nil =>
          rw [hfields] at hhead
          cases hhead
        | cons f fs =>
          rw [hfields] at hhead
          have hf : f = output_field.DEV_ID := by
            injection hhead
          subst hf
          rfl

/-- C9 witness: devices delivered in the order 3, 1, 2 are presented by the
catalog as 1, 2, 3 — each exactly once, keys strictly ascending. -/
theorem device_catalog_sorted_witness :
    (walk_device_tree_model items_unordered [] = Except.ok
      [(1, ⟨1, 0, 0, 0⟩), (2, ⟨1, 0, 0, 0⟩), (3, ⟨1, 0, 0, 0⟩)]) ∧
    List.Pairwise (fun p q : Nat × device_details => p.1 < q.1)
      [((1 : Nat), (⟨1, 0, 0, 0⟩ : device_details)), (2, ⟨1, 0, 0, 0⟩), (3, ⟨1, 0, 0, 0⟩)] := by
  refine ⟨rfl, ?_⟩
  exact (device_catalog_sorted items_unordered
    [(1, ⟨1, 0, 0, 0⟩), (2, ⟨1, 0, 0, 0⟩), (3, ⟨1, 0, 0, 0⟩)] rfl).1

end ThinLs
